import Mathlib

/-!
# Verification of the twobody intercept pipeline (src/twobody/intercept.c)

Shallow embedding of the intercept-prediction pipeline over exact rationals:

* doubles are modelled as `ℚ`; the C constant `M_PI` is modelled as the exact
  rational value of the IEEE-754 double `M_PI`;
* the `zero()` epsilon comparison of `math_utils.h` (not part of the sources,
  only its uses) is modelled from the spec ("a fixed small epsilon") with the
  DBL_EPSILON-style tolerance `2⁻⁵²`, so `zero x ↔ |x| < 2⁻²⁶`;
* the external collaborators (libm trigonometry, conic scalar formulas, the
  anomaly conversions and position/velocity evaluation, all declared out of
  scope by the spec and absent from the sources) are modelled as an abstract
  interface bundle `Collab` carrying exactly the range facts the spec states for
  them; conic periapsis/apoapsis/closedness have the standard conic formulas
  given in the spec glossary.

All functions of intercept.c that the claims touch are embedded:
`intersect_ranges`, `intercept_intersect`, `intercept_times`,
`intercept_search` and `intercept_orbit`.
-/

/-- Exact value of the IEEE-754 double constant `M_PI`
(`7074237752028440 * 2⁻⁵¹`). -/
def MPI : ℚ := 884279719003555 / 281474976710656

/-- `DBL_EPSILON = 2⁻⁵²`, the tolerance used by the `zero()` comparison
(modelled from the spec: "a fixed small epsilon"). -/
def EPS : ℚ := 1 / 4503599627370496

/-- `√EPS = 2⁻²⁶`: `zero x` is equivalent to `|x| < TOL`. -/
def TOL : ℚ := 1 / 67108864

/-- Modelled from the spec: the shared approximately-zero predicate
`zero(x) = x*x < DBL_EPSILON` of `math_utils.h`. -/
def zeroQ (x : ℚ) : Prop := x * x < EPS

instance (x : ℚ) : Decidable (zeroQ x) := by
  unfold zeroQ; infer_instance

theorem MPI_pos : 0 < MPI := by norm_num [MPI]

theorem MPI_gt3 : 3 < MPI := by norm_num [MPI]

theorem MPI_lt4 : MPI < 4 := by norm_num [MPI]

theorem TOL_pos : 0 < TOL := by norm_num [TOL]

theorem TOL_small : TOL < 1 / 1000000 := by norm_num [TOL]

theorem zeroQ_iff (x : ℚ) : zeroQ x ↔ -TOL < x ∧ x < TOL := by
  unfold zeroQ
  have hET : EPS = TOL * TOL := by norm_num [EPS, TOL]
  have hT : 0 < TOL := TOL_pos
  rw [hET]
  constructor
  · intro h
    constructor <;> nlinarith [sq_nonneg (x - TOL), sq_nonneg (x + TOL)]
  · rintro ⟨h1, h2⟩
    nlinarith

/-- Modelled from the spec: `clamp(lo, hi, x)` of `math_utils.h`. -/
def clampQ (lo hi x : ℚ) : ℚ := max lo (min hi x)

/-- Modelled from the spec: `sign(x)` of `math_utils.h`
(`1` for positive, `-1` for negative, `0` at zero). -/
def csign (x : ℚ) : ℚ := if 0 < x then 1 else if x < 0 then -1 else 0

/-- C double-to-int conversion: truncation toward zero. -/
def cTruncZ (q : ℚ) : ℤ := if q < 0 then -(⌊-q⌋) else ⌊q⌋

/-- A pair of angular (or time) ranges: `(f0, f1)` and `(f2, f3)`,
a range with `begin ≥ end` marking "empty" (4-slot output buffer). -/
structure R4 where
  f0 : ℚ
  f1 : ℚ
  f2 : ℚ
  f3 : ℚ
deriving DecidableEq, Repr

/-! ## `intersect_ranges` (intercept.c lines 8-61), split into its
sequential normalization stages. -/

/-- The 2×2 pairwise-overlap loop of `intersect_ranges` (lines 16-22):
for `i = 1` each input contributes its second range only if non-empty,
otherwise its first range again. -/
def stage1 (fs1 fs2 : R4) : R4 :=
  ⟨max fs1.f0 fs2.f0,
   min fs1.f1 fs2.f1,
   max (if fs1.f2 < fs1.f3 then fs1.f2 else fs1.f0)
       (if fs2.f2 < fs2.f3 then fs2.f2 else fs2.f0),
   min (if fs1.f2 < fs1.f3 then fs1.f3 else fs1.f1)
       (if fs2.f2 < fs2.f3 then fs2.f3 else fs2.f1)⟩

/-- Lines 24-31: ranges overlap at apoapsis on a closed orbit →
union them below `-2π`. -/
def apoUnion (closed : Bool) (g : R4) : R4 :=
  if closed = true ∧ (g.f0 ≤ -MPI ∨ zeroQ (g.f0 + MPI)) ∧
      (MPI ≤ g.f3 ∨ zeroQ (g.f3 - MPI)) then
    ⟨min g.f0 (g.f2 - 2 * MPI), max g.f1 (g.f3 - 2 * MPI), 1, -1⟩
  else g

/-- Lines 33-38: ranges touch at periapsis → union them. -/
def periUnion (g : R4) : R4 :=
  if (g.f2 ≤ g.f1 ∨ zeroQ (g.f1 - g.f2)) ∧ g.f2 < g.f3 then
    ⟨g.f0, g.f3, 1, -1⟩
  else g

/-- Lines 40-46: second range overlaps apoapsis → rotate it first, below `-2π`. -/
def wrapSwap (g : R4) : R4 :=
  if g.f2 < g.f3 ∧ MPI < g.f3 then
    ⟨g.f2 - 2 * MPI, g.f3 - 2 * MPI, g.f0, g.f1⟩
  else g

/-- Lines 48-52: first range empty, second non-empty → swap. -/
def emptySwap (g : R4) : R4 :=
  if g.f2 < g.f3 ∧ ¬(g.f0 < g.f1) then ⟨g.f2, g.f3, 1, -1⟩ else g

/-- Lines 54-58: first range covers a full orbit → collapse to `[-π, π]`. -/
def fullCollapse (g : R4) : R4 :=
  if 2 * MPI ≤ g.f1 - g.f0 then ⟨-MPI, MPI, g.f2, g.f3⟩ else g

/-- Line 60: the returned count of non-empty ranges. -/
def rangeCount (g : R4) : ℕ :=
  (if g.f0 < g.f1 then 1 else 0) + (if g.f2 < g.f3 then 1 else 0)

/-- `intersect_ranges` (intercept.c lines 8-61): the normalized
intersection of two range-pairs and its non-empty count. -/
def intersectRanges (fs1 fs2 : R4) (closed : Bool) : R4 × ℕ :=
  let g := fullCollapse (emptySwap (wrapSwap (periUnion
    (apoUnion closed (stage1 fs1 fs2)))))
  (g, rangeCount g)

/-! ### C6: commutativity of `intersect_ranges` -/

theorem stage1_comm (fs1 fs2 : R4) : stage1 fs1 fs2 = stage1 fs2 fs1 := by
  unfold stage1
  simp only [R4.mk.injEq]
  exact ⟨max_comm _ _, min_comm _ _, max_comm _ _, min_comm _ _⟩

/-- C6: `intersect_ranges` is commutative: swapping the `fs1` and `fs2`
arguments yields the same output ranges and the same returned count, for
every pair of range-pairs and every value of the closed flag. -/
theorem intersectRanges_comm (fs1 fs2 : R4) (closed : Bool) :
    intersectRanges fs1 fs2 closed = intersectRanges fs2 fs1 closed := by
  unfold intersectRanges
  rw [stage1_comm]

/-! ### C7: idempotence against the full range -/

/-- The full range: `[-π, π]`, or `[-2π, 2π]` when closed. -/
def fullRange (closed : Bool) : R4 :=
  if closed then ⟨-2 * MPI, 2 * MPI, 1, -1⟩ else ⟨-MPI, MPI, 1, -1⟩

/-- C7 counterexample: the well-formed single-range pair `(-2π, 1)` on a
closed orbit (first range extends below `-π`, which the claim's
well-formedness allows) is rewritten by the full-orbit collapse to
`(-π, π)`, so intersecting with the full range `[-2π, 2π]` does **not**
return the same ranges. -/
theorem c7_counterexample :
    intersectRanges ⟨-2 * MPI, 1, 1, -1⟩ (fullRange true) true
        = (⟨-MPI, MPI, 1, -1⟩, 1) ∧
      (⟨-MPI, MPI, 1, -1⟩ : R4) ≠ ⟨-2 * MPI, 1, 1, -1⟩ := by
  constructor
  · norm_num [intersectRanges, stage1, apoUnion, periUnion, wrapSwap,
      emptySwap, fullCollapse, rangeCount, fullRange, zeroQ, EPS, MPI]
  · intro h
    have h0 := congrArg R4.f0 h
    norm_num [MPI] at h0

/-- Auxiliary: intersecting a single well-formed range (second pair the
canonical empty sentinel) with a covering range leaves it unchanged. -/
theorem idemAux_single (a0 a1 F0 F1 : ℚ) (closed : Bool)
    (h01 : a0 < a1) (hlo : F0 ≤ a0) (hhi : a1 ≤ F1)
    (hApo : ¬(closed = true ∧ (a0 ≤ -MPI ∨ zeroQ (a0 + MPI)) ∧
      (MPI ≤ a1 ∨ zeroQ (a1 - MPI))))
    (hspan : a1 - a0 < 2 * MPI) :
    intersectRanges ⟨a0, a1, 1, -1⟩ ⟨F0, F1, 1, -1⟩ closed
      = (⟨a0, a1, 1, -1⟩, 1) := by
  have hne : ¬((1 : ℚ) < -1) := by norm_num
  have hg : stage1 ⟨a0, a1, 1, -1⟩ ⟨F0, F1, 1, -1⟩ = ⟨a0, a1, a0, a1⟩ := by
    simp only [stage1, if_neg hne]
    congr 1
    · exact max_eq_left hlo
    · exact min_eq_left hhi
    · exact max_eq_left hlo
    · exact min_eq_left hhi
  have h2 : apoUnion closed ⟨a0, a1, a0, a1⟩ = ⟨a0, a1, a0, a1⟩ := by
    simp only [apoUnion]
    exact if_neg hApo
  have h3 : periUnion ⟨a0, a1, a0, a1⟩ = ⟨a0, a1, 1, -1⟩ := by
    simp only [periUnion]
    exact if_pos ⟨Or.inl (le_of_lt h01), h01⟩
  have h4 : wrapSwap ⟨a0, a1, 1, -1⟩ = ⟨a0, a1, 1, -1⟩ := by
    simp only [wrapSwap]
    refine if_neg ?_
    rintro ⟨h, -⟩
    exact hne h
  have h5 : emptySwap ⟨a0, a1, 1, -1⟩ = ⟨a0, a1, 1, -1⟩ := by
    simp only [emptySwap]
    refine if_neg ?_
    rintro ⟨h, -⟩
    exact hne h
  have h6 : fullCollapse ⟨a0, a1, 1, -1⟩ = ⟨a0, a1, 1, -1⟩ := by
    simp only [fullCollapse]
    refine if_neg ?_
    intro h
    linarith
  simp only [intersectRanges, hg, h2, h3, h4, h5, h6, rangeCount]
  rw [if_pos h01, if_neg hne]

/-- Auxiliary: intersecting a well-formed two-range pair with a covering
range leaves it unchanged, provided the gap between the two ranges exceeds
the zero tolerance and the apoapsis-union rule does not fire. -/
theorem idemAux_double (a0 a1 a2 a3 F0 F1 : ℚ) (closed : Bool)
    (h01 : a0 < a1) (h23 : a2 < a3)
    (hlo : F0 ≤ a0) (hlo2 : F0 ≤ a2) (hhi1 : a1 ≤ F1) (hhi3 : a3 ≤ F1)
    (h3pi : a3 ≤ MPI) (hgap : a1 < a2) (hz : ¬ zeroQ (a1 - a2))
    (hApo : ¬(closed = true ∧ (a0 ≤ -MPI ∨ zeroQ (a0 + MPI)) ∧
      (MPI ≤ a3 ∨ zeroQ (a3 - MPI))))
    (hspan : a1 - a0 < 2 * MPI) :
    intersectRanges ⟨a0, a1, a2, a3⟩ ⟨F0, F1, 1, -1⟩ closed
      = (⟨a0, a1, a2, a3⟩, 2) := by
  have hne : ¬((1 : ℚ) < -1) := by norm_num
  have hg : stage1 ⟨a0, a1, a2, a3⟩ ⟨F0, F1, 1, -1⟩ = ⟨a0, a1, a2, a3⟩ := by
    simp only [stage1, if_neg hne, if_pos h23]
    congr 1
    · exact max_eq_left hlo
    · exact min_eq_left hhi1
    · exact max_eq_left hlo2
    · exact min_eq_left hhi3
  have h2 : apoUnion closed ⟨a0, a1, a2, a3⟩ = ⟨a0, a1, a2, a3⟩ := by
    simp only [apoUnion]
    exact if_neg hApo
  have h3 : periUnion ⟨a0, a1, a2, a3⟩ = ⟨a0, a1, a2, a3⟩ := by
    simp only [periUnion]
    refine if_neg ?_
    rintro ⟨hor, -⟩
    rcases hor with h | h
    · linarith
    · exact hz h
  have h4 : wrapSwap ⟨a0, a1, a2, a3⟩ = ⟨a0, a1, a2, a3⟩ := by
    simp only [wrapSwap]
    refine if_neg ?_
    rintro ⟨-, h⟩
    linarith
  have h5 : emptySwap ⟨a0, a1, a2, a3⟩ = ⟨a0, a1, a2, a3⟩ := by
    simp only [emptySwap]
    refine if_neg ?_
    rintro ⟨-, h⟩
    exact h h01
  have h6 : fullCollapse ⟨a0, a1, a2, a3⟩ = ⟨a0, a1, a2, a3⟩ := by
    simp only [fullCollapse]
    refine if_neg ?_
    intro h
    linarith
  simp only [intersectRanges, hg, h2, h3, h4, h5, h6, rangeCount]
  rw [if_pos h01, if_pos h23]

/-- C7 amended: `intersect_ranges` is idempotent against the full range
`[-π, π]` (or `[-2π, 2π]` when the closed flag is set) for every
well-formed range-pair (non-empty ranges with begin < end, the second pair
marked empty by the canonical `(1, -1)` sentinel when absent, only the
first pair possibly extending below `-π` and only when closed), provided
additionally that (i) when two ranges are present their gap exceeds the
zero-comparison tolerance, (ii) the first range spans less than a full
turn `2π`, and (iii) on a closed orbit the pair does not touch apoapsis in
the sense of the union rule of lines 24-31 (begin at or below `-π` within
tolerance together with last end at or above `π` within tolerance). -/
theorem intersectRanges_full_idem (a0 a1 a2 a3 : ℚ) (closed : Bool)
    (h01 : a0 < a1) (h1pi : a1 ≤ MPI)
    (hloC : closed = true → -2 * MPI ≤ a0)
    (hloO : closed = false → -MPI ≤ a0)
    (hsec : (a2 = 1 ∧ a3 = -1) ∨
      (-MPI ≤ a2 ∧ a2 < a3 ∧ a3 ≤ MPI ∧ a1 < a2 ∧ ¬ zeroQ (a1 - a2)))
    (hspan : a1 - a0 < 2 * MPI)
    (hApo : closed = true →
      ¬((a0 ≤ -MPI ∨ zeroQ (a0 + MPI)) ∧
        (MPI ≤ (if a2 < a3 then a3 else a1) ∨
          zeroQ ((if a2 < a3 then a3 else a1) - MPI)))) :
    intersectRanges ⟨a0, a1, a2, a3⟩ (fullRange closed) closed
      = (⟨a0, a1, a2, a3⟩, if a2 < a3 then 2 else 1) := by
  have hMPI := MPI_pos
  have hne : ¬((1 : ℚ) < -1) := by norm_num
  cases closed with
  | false =>
    have hfr : fullRange false = ⟨-MPI, MPI, 1, -1⟩ := rfl
    have hlo := hloO rfl
    rcases hsec with ⟨h2, h3⟩ | ⟨hlo2, h23, h3pi, hgap, hz⟩
    · subst h2; subst h3
      rw [hfr, if_neg hne]
      exact idemAux_single a0 a1 (-MPI) MPI false h01 hlo h1pi
        (by rintro ⟨h, -⟩; exact Bool.false_ne_true h) hspan
    · rw [hfr, if_pos h23]
      exact idemAux_double a0 a1 a2 a3 (-MPI) MPI false h01 h23 hlo hlo2
        h1pi h3pi h3pi hgap hz
        (by rintro ⟨h, -⟩; exact Bool.false_ne_true h) hspan
  | true =>
    have hfr : fullRange true = ⟨-2 * MPI, 2 * MPI, 1, -1⟩ := rfl
    have hlo := hloC rfl
    have hApo' := hApo rfl
    rcases hsec with ⟨h2, h3⟩ | ⟨hlo2, h23, h3pi, hgap, hz⟩
    · subst h2; subst h3
      rw [if_neg hne] at hApo'
      rw [hfr, if_neg hne]
      exact idemAux_single a0 a1 (-2 * MPI) (2 * MPI) true h01 hlo
        (by linarith)
        (by rintro ⟨-, hc⟩; exact hApo' hc) hspan
    · rw [if_pos h23] at hApo'
      rw [hfr, if_pos h23]
      exact idemAux_double a0 a1 a2 a3 (-2 * MPI) (2 * MPI) true h01 h23 hlo
        (by linarith) (by linarith) (by linarith) h3pi hgap hz
        (by rintro ⟨-, hc⟩; exact hApo' hc) hspan

/-- Witness for the amended C7 at the concrete well-formed single-range
input `(-1, 1)` with an open orbit. -/
theorem intersectRanges_full_idem_witness :
    ((-1 : ℚ) < 1) ∧
      intersectRanges ⟨-1, 1, 1, -1⟩ (fullRange false) false
        = (⟨-1, 1, 1, -1⟩, 1) := by
  refine ⟨by norm_num, ?_⟩
  have h := intersectRanges_full_idem (-1) 1 1 (-1) false (by norm_num)
    (by norm_num [MPI])
    (fun h => absurd h (by norm_num))
    (fun _ => by norm_num [MPI])
    (Or.inl ⟨rfl, rfl⟩)
    (by norm_num [MPI])
    (fun h => absurd h (by norm_num))
  simpa using h

/-! ## Data model: vectors, orbits, and the external collaborator interface -/

/-- 3-vector over ℚ (the C `vec4d` carries an unused fourth lane). -/
structure Vec3 where
  x : ℚ
  y : ℚ
  z : ℚ
deriving DecidableEq, Repr

/-- Modelled from the spec: vector dot product primitive. -/
def dotV (a b : Vec3) : ℚ := a.x * b.x + a.y * b.y + a.z * b.z

/-- Modelled from the spec: vector cross product primitive. -/
def crossV (a b : Vec3) : Vec3 :=
  ⟨a.y * b.z - a.z * b.y, a.z * b.x - a.x * b.z, a.x * b.y - a.y * b.x⟩

/-- Modelled from the spec: componentwise vector difference. -/
def subV (a b : Vec3) : Vec3 := ⟨a.x - b.x, a.y - b.y, a.z - b.z⟩

/-- An orbit descriptor: the scalars and axes the core reads through the
external accessors (`orbit_semi_latus_rectum`, `orbit_eccentricity`,
`orbit_gravity_parameter`, `orbit_periapsis_time`, `orbit_radial` and the
orientation triad). -/
structure Orbit where
  mu : ℚ
  p : ℚ
  e : ℚ
  tPe : ℚ
  radial : Bool
  majorAxis : Vec3
  minorAxis : Vec3
  normalAxis : Vec3

/-- Modelled from the spec: `conic_periapsis(p, e) = p / (1 + e)`. -/
def conicPeriapsis (p e : ℚ) : ℚ := p / (1 + e)

/-- Modelled from the spec: `conic_apoapsis(p, e) = p / (1 - e)`
(only read under a `conic_closed` guard in the core). -/
def conicApoapsis (p e : ℚ) : ℚ := p / (1 - e)

/-- Modelled from the spec: an orbit is closed iff `e < 1`. -/
def conicClosed (e : ℚ) : Bool := decide (e < 1)

/-- Modelled from the spec: circular means eccentricity approximately
zero (the spec's shared epsilon comparison). -/
def conicCircular (e : ℚ) : Bool := decide (zeroQ e)

/-- Modelled from the spec: `orbit_elliptic` = periodic = closed orbit
(used by the Time Windower to decide whether ranges repeat). -/
def orbitElliptic (o : Orbit) : Bool := conicClosed o.e

/-- The external collaborator interface (spec §6): libm trigonometry and
the conic/anomaly formulas that live outside the core sources.  The Prop
fields record the interface facts the spec states: inverse trigonometric
calls are made on clamped arguments and land in their principal ranges,
`true_anomaly_from_radius` lands between 0 and the maximal true anomaly
(itself at most `π`), and mean motion is a non-negative rate. -/
structure Collab where
  sqrt : ℚ → ℚ
  sin : ℚ → ℚ
  cos : ℚ → ℚ
  asin : ℚ → ℚ
  acos : ℚ → ℚ
  trueAnomalyFromRadius : ℚ → ℚ → ℚ → ℚ
  maxTrueAnomaly : ℚ → ℚ
  meanMotion : ℚ → ℚ → ℚ → ℚ
  meanToTrue : ℚ → ℚ → ℚ
  trueToMean : ℚ → ℚ → ℚ
  meanToEccentric : ℚ → ℚ → ℚ
  periapsisVelocity : ℚ → ℚ → ℚ → ℚ
  positionE : Orbit → ℚ → Vec3
  velocityE : Orbit → ℚ → Vec3
  asin_mem : ∀ x, -1 ≤ x → x ≤ 1 → -(MPI / 2) ≤ asin x ∧ asin x ≤ MPI / 2
  acos_mem : ∀ x, -1 ≤ x → x ≤ 1 → 0 ≤ acos x ∧ acos x ≤ MPI
  taf_mem : ∀ p e r, 0 ≤ trueAnomalyFromRadius p e r ∧
    trueAnomalyFromRadius p e r ≤ maxTrueAnomaly e
  maxTA_mem : ∀ e, 0 ≤ maxTrueAnomaly e ∧ maxTrueAnomaly e ≤ MPI
  meanMotion_nonneg : ∀ mu p e, 0 ≤ meanMotion mu p e

/-! ## `intercept_intersect` (intercept.c lines 63-150) -/

/-- The radius-band ranges of lines 91-115: true anomaly on orbit 1
between orbit 2's periapsis and apoapsis bands, widened by the threshold. -/
def radiusBands (ext : Collab) (o1 o2 : Orbit) (threshold : ℚ) : R4 :=
  let p1 := o1.p
  let e1 := o1.e
  let e2 := o2.e
  let pe2 := conicPeriapsis o2.p e2
  let ap2 := conicApoapsis o2.p e2
  let maxf := ext.maxTrueAnomaly e1
  let fpe := if conicCircular e1 = true then 0
    else ext.trueAnomalyFromRadius p1 e1 (pe2 - threshold)
  let fap := if conicCircular e1 = true ∨ ¬(conicClosed e2 = true) then maxf
    else ext.trueAnomalyFromRadius p1 e1 (ap2 + threshold)
  let f1 := min fap fpe
  let f2 := max fap fpe
  if conicClosed e1 = true ∧ zeroQ f1 ∧ ¬(f2 < MPI) then
    ⟨-(2 * MPI), 2 * MPI, 1, -1⟩
  else if zeroQ f1 then ⟨-f2, f2, 1, -1⟩
  else if conicClosed e1 = true ∧ ¬(f2 < MPI) then
    ⟨-(2 * MPI), -f1, f1, 2 * MPI⟩
  else ⟨-f2, -f1, f1, f2⟩

/-- The plane-proximity bands of lines 117-147: true anomaly of orbit 1
within threshold of orbit 2's orbital plane, around the two nodes. -/
def planeBands (ext : Collab) (o1 o2 : Orbit) (threshold : ℚ) : R4 :=
  let nodes := crossV o1.normalAxis o2.normalAxis
  let N2 := dotV nodes nodes
  if N2 < EPS then ⟨-MPI, MPI, 1, -1⟩
  else
    let N := ext.sqrt N2
    let reli := csign (dotV o1.normalAxis o2.normalAxis) *
      ext.asin (clampQ (-1) 1 N)
    let fan := csign (dotV o1.minorAxis nodes) *
      ext.acos (clampQ (-1) 1 (dotV o1.majorAxis nodes / N))
    let fdn := fan - csign fan * MPI
    let fn1 := min fan fdn
    let fn2 := max fan fdn
    let r1 := o1.p / (1 + o1.e * ext.cos fn1)
    let d1 := ext.asin (clampQ (-1) 1
      (ext.sin (threshold / (2 * r1)) / ext.sin (|reli| / 2)))
    let r2 := o1.p / (1 + o1.e * ext.cos fn2)
    let d2 := ext.asin (clampQ (-1) 1
      (ext.sin (threshold / (2 * r2)) / ext.sin (|reli| / 2)))
    ⟨fn1 - d1, fn1 + d1, fn2 - d2, fn2 + d2⟩

/-- `intercept_intersect` (intercept.c lines 63-150): count of true
anomaly ranges of orbit 1 near orbit 2, and the written 4-slot buffer
(`none` when the function returns 0 early without writing it). -/
def interceptIntersect (ext : Collab) (o1 o2 : Orbit) (threshold : ℚ) :
    ℕ × Option R4 :=
  if o1.radial = true ∨ o2.radial = true then (0, none)
  else
    let ap1 := conicApoapsis o1.p o1.e
    let pe1 := conicPeriapsis o1.p o1.e
    let ap2 := conicApoapsis o2.p o2.e
    let pe2 := conicPeriapsis o2.p o2.e
    if (conicClosed o1.e = true ∧ ap1 ≤ pe2 - threshold) ∨
        (conicClosed o2.e = true ∧ ap2 ≤ pe1 - threshold) then (0, none)
    else
      let res := intersectRanges (radiusBands ext o1 o2 threshold)
        (planeBands ext o1 o2 threshold) (conicClosed o1.e)
      (res.2, some res.1)

/-! ### C8: radial orbits are rejected with a "no result" outcome -/

/-- C8: for every pair of orbits of which at least one is radial,
`intercept_intersect` returns 0 immediately with the output buffer left
unwritten — a "no result" outcome, not an error. -/
theorem interceptIntersect_radial (ext : Collab) (o1 o2 : Orbit)
    (threshold : ℚ) (h : o1.radial = true ∨ o2.radial = true) :
    interceptIntersect ext o1 o2 threshold = (0, none) := by
  unfold interceptIntersect
  rw [if_pos h]

/-- The trivial collaborator instance used to evaluate witnesses. -/
def extZero : Collab where
  sqrt := fun _ => 0
  sin := fun _ => 0
  cos := fun _ => 0
  asin := fun _ => 0
  acos := fun _ => 0
  trueAnomalyFromRadius := fun _ _ _ => 0
  maxTrueAnomaly := fun _ => 0
  meanMotion := fun _ _ _ => 0
  meanToTrue := fun _ _ => 0
  trueToMean := fun _ _ => 0
  meanToEccentric := fun _ _ => 0
  periapsisVelocity := fun _ _ _ => 0
  positionE := fun _ _ => ⟨0, 0, 0⟩
  velocityE := fun _ _ => ⟨0, 0, 0⟩
  asin_mem := fun _ _ _ => ⟨by norm_num [MPI], by norm_num [MPI]⟩
  acos_mem := fun _ _ _ => ⟨le_refl 0, le_of_lt MPI_pos⟩
  taf_mem := fun _ _ _ => ⟨le_refl 0, le_refl 0⟩
  maxTA_mem := fun _ => ⟨le_refl 0, le_of_lt MPI_pos⟩
  meanMotion_nonneg := fun _ _ _ => le_refl 0

/-- A radial orbit used by the C8 witness. -/
def orbitRadial : Orbit :=
  ⟨1, 1, 0, 0, true, ⟨1, 0, 0⟩, ⟨0, 1, 0⟩, ⟨0, 0, 1⟩⟩

/-- A plain circular orbit used by witnesses. -/
def orbitCircUnit : Orbit :=
  ⟨1, 1, 0, 0, false, ⟨1, 0, 0⟩, ⟨0, 1, 0⟩, ⟨0, 0, 1⟩⟩

/-- Witness for C8 at a concrete radial orbit. -/
theorem interceptIntersect_radial_witness :
    (orbitRadial.radial = true ∨ orbitCircUnit.radial = true) ∧
      interceptIntersect extZero orbitRadial orbitCircUnit 1 = (0, none) :=
  ⟨Or.inl rfl,
   interceptIntersect_radial extZero orbitRadial orbitCircUnit 1 (Or.inl rfl)⟩

/-! ### C3: output well-formedness of the Range Intersector

The surviving conditions of `intersect_ranges` can be stated as single
linear inequalities: an `x ≤ y`-or-`zero` disjunction is exactly a strict
comparison against the tolerance `TOL = √DBL_EPSILON`. -/

theorem orZero_le_iff (a b : ℚ) : (a ≤ b ∨ zeroQ (a - b)) ↔ a < b + TOL := by
  rw [zeroQ_iff]
  have hT := TOL_pos
  constructor
  · rintro (h | ⟨h1, h2⟩) <;> linarith
  · intro h
    rcases le_or_lt a b with h' | h'
    · exact Or.inl h'
    · exact Or.inr ⟨by linarith, by linarith⟩

theorem orZero_ge_iff (a b : ℚ) : (b ≤ a ∨ zeroQ (a - b)) ↔ b - TOL < a := by
  rw [zeroQ_iff]
  have hT := TOL_pos
  constructor
  · rintro (h | ⟨h1, h2⟩) <;> linarith
  · intro h
    rcases le_or_lt b a with h' | h'
    · exact Or.inl h'
    · exact Or.inr ⟨by linarith, by linarith⟩

theorem apoUnion_eq (closed : Bool) (g : R4) :
    apoUnion closed g =
      if closed = true ∧ g.f0 < -MPI + TOL ∧ MPI - TOL < g.f3 then
        ⟨min g.f0 (g.f2 - 2 * MPI), max g.f1 (g.f3 - 2 * MPI), 1, -1⟩
      else g := by
  unfold apoUnion
  congr 1
  rw [eq_iff_iff]
  constructor
  · rintro ⟨hc, h1, h2⟩
    refine ⟨hc, ?_, (orZero_ge_iff _ _).mp h2⟩
    have := (orZero_le_iff g.f0 (-MPI)).mp
    rw [show g.f0 - -MPI = g.f0 + MPI by ring] at this
    exact this h1
  · rintro ⟨hc, h1, h2⟩
    refine ⟨hc, ?_, (orZero_ge_iff _ _).mpr h2⟩
    have := (orZero_le_iff g.f0 (-MPI)).mpr
    rw [show g.f0 - -MPI = g.f0 + MPI by ring] at this
    exact this h1

theorem periUnion_eq (g : R4) :
    periUnion g =
      if g.f2 < g.f1 + TOL ∧ g.f2 < g.f3 then ⟨g.f0, g.f3, 1, -1⟩ else g := by
  unfold periUnion
  congr 1
  rw [eq_iff_iff]
  constructor
  · rintro ⟨h1, h2⟩
    refine ⟨?_, h2⟩
    have := (orZero_ge_iff g.f1 g.f2).mp h1
    linarith
  · rintro ⟨h1, h2⟩
    exact ⟨(orZero_ge_iff g.f1 g.f2).mpr (by linarith), h2⟩

/-- The output well-formedness bundle for the Range Intersector, as the
code actually guarantees it (the C3 claim's exact `[-2π, π]` bound on the
first pair fails at two tolerance corners, see `c3_counterexample`):
non-empty pairs come first; the first pair has begin at least
`-2π - TOL`, end at most `3π/2` (at most `π` on an open orbit), and drops
below `-π` only when closed; the second pair stays within `[-π, π]` and
never precedes the first. -/
def KBundle (closed : Bool) (g : R4) : Prop :=
  (g.f2 < g.f3 → g.f0 < g.f1) ∧
  (g.f0 < g.f1 → -(2 * MPI) - TOL ≤ g.f0 ∧ g.f1 ≤ 3 * MPI / 2 ∧
    (g.f0 < -MPI → closed = true) ∧ (closed = false → g.f1 ≤ MPI)) ∧
  (g.f2 < g.f3 → -MPI ≤ g.f2 ∧ g.f3 ≤ MPI ∧ g.f1 ≤ g.f2)

/-- Config lemma: both inputs carry a single (duplicated) range:
`fs1` with empty second pair and first pair bounded below by `-2π`
(below `-π` only when closed), `fs2` with empty second pair and first
pair ending at or below `π`. -/
theorem kb_dup_dup (a0 a1 b0 b1 c0 c1 c2 c3 : ℚ) (closed : Bool)
    (ha0 : -(2 * MPI) ≤ a0) (ha0cl : a0 < -MPI → closed = true)
    (hb1 : b1 ≤ MPI)
    (hsec1 : ¬(c0 < c1)) (hsec2 : ¬(c2 < c3)) :
    KBundle closed (intersectRanges ⟨a0, a1, c0, c1⟩ ⟨b0, b1, c2, c3⟩ closed).1 := by
  have hMPI3 := MPI_gt3
  have hMPI4 := MPI_lt4
  have hTOL := TOL_pos
  have hTOLs := TOL_small
  have hg : stage1 ⟨a0, a1, c0, c1⟩ ⟨b0, b1, c2, c3⟩
      = ⟨max a0 b0, min a1 b1, max a0 b0, min a1 b1⟩ := by
    simp only [stage1]
    rw [if_neg hsec1, if_neg hsec1, if_neg hsec2, if_neg hsec2]
  simp only [intersectRanges, hg]
  have hne : ¬((1 : ℚ) < -1) := by norm_num
  set m0 := max a0 b0 with hm0
  set m1 := min a1 b1 with hm1
  have h1 : a0 ≤ m0 := le_max_left _ _
  have h2 : b0 ≤ m0 := le_max_right _ _
  have h3 : m1 ≤ a1 := min_le_left _ _
  have h4 : m1 ≤ b1 := min_le_right _ _
  clear_value m0 m1
  clear hm0 hm1
  by_cases hA : closed = true ∧ m0 < -MPI + TOL ∧ MPI - TOL < m1
  · have e2 : apoUnion closed ⟨m0, m1, m0, m1⟩
        = ⟨m0 - 2 * MPI, m1, 1, -1⟩ := by
      rw [apoUnion_eq, if_pos hA]
      congr 1
      · exact min_eq_right (by linarith)
      · exact max_eq_left (by linarith)
    have e3 : periUnion ⟨m0 - 2 * MPI, m1, 1, -1⟩
        = ⟨m0 - 2 * MPI, m1, 1, -1⟩ := by
      rw [periUnion_eq, if_neg]
      rintro ⟨-, h⟩; exact hne h
    have e4 : wrapSwap ⟨m0 - 2 * MPI, m1, 1, -1⟩
        = ⟨m0 - 2 * MPI, m1, 1, -1⟩ := by
      rw [wrapSwap, if_neg]
      rintro ⟨h, -⟩; exact hne h
    have e5 : emptySwap ⟨m0 - 2 * MPI, m1, 1, -1⟩
        = ⟨m0 - 2 * MPI, m1, 1, -1⟩ := by
      rw [emptySwap, if_neg]
      rintro ⟨h, -⟩; exact hne h
    have e6 : fullCollapse ⟨m0 - 2 * MPI, m1, 1, -1⟩
        = ⟨-MPI, MPI, 1, -1⟩ := by
      rw [fullCollapse, if_pos]
      have := hA.2.1
      have := hA.2.2
      simp only []
      linarith
    rw [e2, e3, e4, e5, e6]
    dsimp only [KBundle]
    refine ⟨fun h => (hne h).elim, fun h => ⟨by linarith, by linarith,
      fun h' => (by linarith : False).elim, fun _ => by linarith⟩,
      fun h => (hne h).elim⟩
  · have e2 : apoUnion closed ⟨m0, m1, m0, m1⟩ = ⟨m0, m1, m0, m1⟩ := by
      rw [apoUnion_eq, if_neg hA]
    rw [e2]
    by_cases hP : m0 < m1
    · have e3 : periUnion ⟨m0, m1, m0, m1⟩ = ⟨m0, m1, 1, -1⟩ := by
        rw [periUnion_eq, if_pos ⟨by linarith, hP⟩]
      have e4 : wrapSwap ⟨m0, m1, 1, -1⟩ = ⟨m0, m1, 1, -1⟩ := by
        rw [wrapSwap, if_neg]; rintro ⟨h, -⟩; exact hne h
      have e5 : emptySwap ⟨m0, m1, 1, -1⟩ = ⟨m0, m1, 1, -1⟩ := by
        rw [emptySwap, if_neg]; rintro ⟨h, -⟩; exact hne h
      rw [e3, e4, e5]
      by_cases hC : 2 * MPI ≤ m1 - m0
      · have e6 : fullCollapse ⟨m0, m1, 1, -1⟩ = ⟨-MPI, MPI, 1, -1⟩ := by
          rw [fullCollapse, if_pos hC]
        rw [e6]
        dsimp only [KBundle]
        refine ⟨fun h => (hne h).elim, fun h => ⟨by linarith, by linarith,
          fun h' => (by linarith : False).elim, fun _ => by linarith⟩,
          fun h => (hne h).elim⟩
      · have e6 : fullCollapse ⟨m0, m1, 1, -1⟩ = ⟨m0, m1, 1, -1⟩ := by
          rw [fullCollapse, if_neg hC]
        rw [e6]
        dsimp only [KBundle]
        refine ⟨fun h => (hne h).elim, fun h => ⟨by linarith, by linarith,
          fun h' => ha0cl (by linarith), fun _ => by linarith⟩,
          fun h => (hne h).elim⟩
    · have e3 : periUnion ⟨m0, m1, m0, m1⟩ = ⟨m0, m1, m0, m1⟩ := by
        rw [periUnion_eq, if_neg]; rintro ⟨-, h⟩; exact hP h
      have e4 : wrapSwap ⟨m0, m1, m0, m1⟩ = ⟨m0, m1, m0, m1⟩ := by
        rw [wrapSwap, if_neg]; rintro ⟨h, -⟩; exact hP h
      have e5 : emptySwap ⟨m0, m1, m0, m1⟩ = ⟨m0, m1, m0, m1⟩ := by
        rw [emptySwap, if_neg]; rintro ⟨h, -⟩; exact hP h
      have e6 : fullCollapse ⟨m0, m1, m0, m1⟩ = ⟨m0, m1, m0, m1⟩ := by
        rw [fullCollapse, if_neg]
        simp only []
        intro h; exact hP (by linarith)
      rw [e3, e4, e5, e6]
      dsimp only [KBundle]
      exact ⟨fun h => (hP h).elim, fun h => (hP h).elim, fun h => (hP h).elim⟩

/-- Config lemma: `fs1` a single (duplicated) range, `fs2` the two
plane-proximity bands with non-empty second band. -/
theorem kb_dup_band (a0 a1 c0 c1 fn1 fn2 d1 d2 : ℚ) (closed : Bool)
    (ha0 : -(2 * MPI) ≤ a0) (ha0cl : a0 < -MPI → closed = true)
    (ha1op : closed = false → a1 ≤ MPI)
    (hfn1l : -MPI ≤ fn1) (hfn1u : fn1 ≤ 0) (hfn2l : 0 ≤ fn2)
    (hfn2u : fn2 ≤ MPI)
    (hrel : fn2 = fn1 + MPI ∨ (fn1 = 0 ∧ fn2 = 0))
    (hd1l : -(MPI / 2) ≤ d1) (hd1u : d1 ≤ MPI / 2)
    (hd2l : -(MPI / 2) ≤ d2) (hd2u : d2 ≤ MPI / 2)
    (hsec1 : ¬(c0 < c1)) (hd2p : fn2 - d2 < fn2 + d2) :
    KBundle closed (intersectRanges ⟨a0, a1, c0, c1⟩
      ⟨fn1 - d1, fn1 + d1, fn2 - d2, fn2 + d2⟩ closed).1 := by
  have hMPI3 := MPI_gt3
  have hMPI4 := MPI_lt4
  have hTOL := TOL_pos
  have hTOLs := TOL_small
  have hne : ¬((1 : ℚ) < -1) := by norm_num
  have hg : stage1 ⟨a0, a1, c0, c1⟩ ⟨fn1 - d1, fn1 + d1, fn2 - d2, fn2 + d2⟩
      = ⟨max a0 (fn1 - d1), min a1 (fn1 + d1),
         max a0 (fn2 - d2), min a1 (fn2 + d2)⟩ := by
    simp only [stage1]
    rw [if_neg hsec1, if_neg hsec1, if_pos hd2p, if_pos hd2p]
  simp only [intersectRanges, hg]
  set g0 := max a0 (fn1 - d1) with hge0
  set g1 := min a1 (fn1 + d1) with hge1
  set g2 := max a0 (fn2 - d2) with hge2
  set g3 := min a1 (fn2 + d2) with hge3
  have k1 : a0 ≤ g0 := le_max_left _ _
  have k2 : fn1 - d1 ≤ g0 := le_max_right _ _
  have k3 : g1 ≤ a1 := min_le_left _ _
  have k4 : g1 ≤ fn1 + d1 := min_le_right _ _
  have k5 : a0 ≤ g2 := le_max_left _ _
  have k6 : fn2 - d2 ≤ g2 := le_max_right _ _
  have k7 : g3 ≤ a1 := min_le_left _ _
  have k8 : g3 ≤ fn2 + d2 := min_le_right _ _
  clear_value g0 g1 g2 g3
  clear hge0 hge1 hge2 hge3
  by_cases hA : closed = true ∧ g0 < -MPI + TOL ∧ MPI - TOL < g3
  · have e2 : apoUnion closed ⟨g0, g1, g2, g3⟩
        = ⟨min g0 (g2 - 2 * MPI), max g1 (g3 - 2 * MPI), 1, -1⟩ := by
      rw [apoUnion_eq, if_pos hA]
    have e3 : periUnion ⟨min g0 (g2 - 2 * MPI), max g1 (g3 - 2 * MPI), 1, -1⟩
        = ⟨min g0 (g2 - 2 * MPI), max g1 (g3 - 2 * MPI), 1, -1⟩ := by
      rw [periUnion_eq, if_neg]; rintro ⟨-, h⟩; exact hne h
    have e4 : wrapSwap ⟨min g0 (g2 - 2 * MPI), max g1 (g3 - 2 * MPI), 1, -1⟩
        = ⟨min g0 (g2 - 2 * MPI), max g1 (g3 - 2 * MPI), 1, -1⟩ := by
      rw [wrapSwap, if_neg]; rintro ⟨h, -⟩; exact hne h
    have e5 : emptySwap ⟨min g0 (g2 - 2 * MPI), max g1 (g3 - 2 * MPI), 1, -1⟩
        = ⟨min g0 (g2 - 2 * MPI), max g1 (g3 - 2 * MPI), 1, -1⟩ := by
      rw [emptySwap, if_neg]; rintro ⟨h, -⟩; exact hne h
    rw [e2, e3, e4, e5]
    have hclf : ¬(closed = false) := by
      intro h; rw [hA.1] at h; exact Bool.noConfusion h
    have hF0l : -(2 * MPI) - TOL ≤ min g0 (g2 - 2 * MPI) := by
      refine le_min (by linarith) ?_
      have := hA.2.2
      linarith
    have hF1u : max g1 (g3 - 2 * MPI) ≤ 3 * MPI / 2 := by
      refine max_le (by linarith) (by linarith)
    by_cases hC : 2 * MPI ≤ max g1 (g3 - 2 * MPI) - min g0 (g2 - 2 * MPI)
    · have e6 : fullCollapse ⟨min g0 (g2 - 2 * MPI), max g1 (g3 - 2 * MPI), 1, -1⟩
          = ⟨-MPI, MPI, 1, -1⟩ := by
        rw [fullCollapse, if_pos hC]
      rw [e6]
      dsimp only [KBundle]
      exact ⟨fun h => (hne h).elim, fun h => ⟨by linarith, by linarith,
        fun h' => (by linarith : False).elim, fun h' => (hclf h').elim⟩,
        fun h => (hne h).elim⟩
    · have e6 : fullCollapse ⟨min g0 (g2 - 2 * MPI), max g1 (g3 - 2 * MPI), 1, -1⟩
          = ⟨min g0 (g2 - 2 * MPI), max g1 (g3 - 2 * MPI), 1, -1⟩ := by
        rw [fullCollapse, if_neg hC]
      rw [e6]
      dsimp only [KBundle]
      exact ⟨fun h => (hne h).elim, fun h => ⟨hF0l, hF1u,
        fun h' => hA.1, fun h' => (hclf h').elim⟩,
        fun h => (hne h).elim⟩
  · have e2 : apoUnion closed ⟨g0, g1, g2, g3⟩ = ⟨g0, g1, g2, g3⟩ := by
      rw [apoUnion_eq, if_neg hA]
    rw [e2]
    by_cases hP : g2 < g1 + TOL ∧ g2 < g3
    · have e3 : periUnion ⟨g0, g1, g2, g3⟩ = ⟨g0, g3, 1, -1⟩ := by
        rw [periUnion_eq, if_pos hP]
      have e4 : wrapSwap ⟨g0, g3, 1, -1⟩ = ⟨g0, g3, 1, -1⟩ := by
        rw [wrapSwap, if_neg]; rintro ⟨h, -⟩; exact hne h
      have e5 : emptySwap ⟨g0, g3, 1, -1⟩ = ⟨g0, g3, 1, -1⟩ := by
        rw [emptySwap, if_neg]; rintro ⟨h, -⟩; exact hne h
      rw [e3, e4, e5]
      by_cases hC : 2 * MPI ≤ g3 - g0
      · have e6 : fullCollapse ⟨g0, g3, 1, -1⟩ = ⟨-MPI, MPI, 1, -1⟩ := by
          rw [fullCollapse, if_pos hC]
        rw [e6]
        dsimp only [KBundle]
        exact ⟨fun h => (hne h).elim, fun h => ⟨by linarith, by linarith,
          fun h' => (by linarith : False).elim, fun _ => by linarith⟩,
          fun h => (hne h).elim⟩
      · have e6 : fullCollapse ⟨g0, g3, 1, -1⟩ = ⟨g0, g3, 1, -1⟩ := by
          rw [fullCollapse, if_neg hC]
        rw [e6]
        dsimp only [KBundle]
        refine ⟨fun h => (hne h).elim, fun h => ⟨by linarith, by linarith,
          fun h' => ha0cl (by linarith), fun h' => ?_⟩,
          fun h => (hne h).elim⟩
        have := ha1op h'
        linarith
    · by_cases hW : g2 < g3 ∧ MPI < g3
      · have e3 : periUnion ⟨g0, g1, g2, g3⟩ = ⟨g0, g1, g2, g3⟩ := by
          rw [periUnion_eq, if_neg hP]
        have e4 : wrapSwap ⟨g0, g1, g2, g3⟩
            = ⟨g2 - 2 * MPI, g3 - 2 * MPI, g0, g1⟩ := by
          rw [wrapSwap, if_pos hW]
        have e5 : emptySwap ⟨g2 - 2 * MPI, g3 - 2 * MPI, g0, g1⟩
            = ⟨g2 - 2 * MPI, g3 - 2 * MPI, g0, g1⟩ := by
          rw [emptySwap, if_neg]
          rintro ⟨-, h⟩
          exact h (by dsimp only; linarith [hW.1])
        have e6 : fullCollapse ⟨g2 - 2 * MPI, g3 - 2 * MPI, g0, g1⟩
            = ⟨g2 - 2 * MPI, g3 - 2 * MPI, g0, g1⟩ := by
          rw [fullCollapse, if_neg]
          dsimp only
          intro h
          linarith
        rw [e3, e4, e5, e6]
        have hclT : closed = true := by
          cases closed with
          | false => exact absurd (le_trans k7 (ha1op rfl)) (by linarith [hW.2])
          | true => rfl
        have hg0big : -MPI + TOL ≤ g0 := by
          by_contra hneg
          exact hA ⟨hclT, by linarith, by linarith [hW.2]⟩
        dsimp only [KBundle]
        refine ⟨fun h => by linarith [hW.1], fun h => ⟨?_, by linarith,
          fun h' => hclT, fun h' => Bool.noConfusion (h' ▸ hclT)⟩,
          fun h => ⟨by linarith, by linarith, ?_⟩⟩
        · have : MPI - 2 * d2 ≤ fn2 - d2 := by linarith
          linarith [hW.2]
        · rcases hrel with h' | ⟨h1', h2'⟩ <;> linarith
      · by_cases hE : g2 < g3 ∧ ¬(g0 < g1)
        · have e3 : periUnion ⟨g0, g1, g2, g3⟩ = ⟨g0, g1, g2, g3⟩ := by
            rw [periUnion_eq, if_neg hP]
          have e4 : wrapSwap ⟨g0, g1, g2, g3⟩ = ⟨g0, g1, g2, g3⟩ := by
            rw [wrapSwap, if_neg hW]
          have e5 : emptySwap ⟨g0, g1, g2, g3⟩ = ⟨g2, g3, 1, -1⟩ := by
            rw [emptySwap, if_pos hE]
          have hg3u : g3 ≤ MPI := by
            by_contra hgt
            exact hW ⟨hE.1, by linarith⟩
          have e6 : fullCollapse ⟨g2, g3, 1, -1⟩ = ⟨g2, g3, 1, -1⟩ := by
            rw [fullCollapse, if_neg]
            dsimp only
            intro h
            linarith
          rw [e3, e4, e5, e6]
          dsimp only [KBundle]
          exact ⟨fun h => (hne h).elim, fun h => ⟨by linarith, by linarith,
            fun h' => (by linarith : False).elim, fun _ => by linarith⟩,
            fun h => (hne h).elim⟩
        · have e3 : periUnion ⟨g0, g1, g2, g3⟩ = ⟨g0, g1, g2, g3⟩ := by
            rw [periUnion_eq, if_neg hP]
          have e4 : wrapSwap ⟨g0, g1, g2, g3⟩ = ⟨g0, g1, g2, g3⟩ := by
            rw [wrapSwap, if_neg hW]
          have e5 : emptySwap ⟨g0, g1, g2, g3⟩ = ⟨g0, g1, g2, g3⟩ := by
            rw [emptySwap, if_neg hE]
          have e6 : fullCollapse ⟨g0, g1, g2, g3⟩ = ⟨g0, g1, g2, g3⟩ := by
            rw [fullCollapse, if_neg]
            dsimp only
            intro h
            linarith
          rw [e3, e4, e5, e6]
          dsimp only [KBundle]
          refine ⟨fun h => ?_, fun h => ⟨by linarith, by linarith,
            fun h' => ha0cl (by linarith), fun _ => by linarith⟩,
            fun h => ⟨by linarith, ?_, ?_⟩⟩
          · by_contra hno
            exact hE ⟨h, hno⟩
          · by_contra hgt
            exact hW ⟨h, by linarith⟩
          · have : ¬(g2 < g1 + TOL) := fun hlt => hP ⟨hlt, h⟩
            linarith

/-- Config lemma: `fs1` two symmetric ranges `(-W, -V) (V, W)`,
`fs2` with empty second pair. -/
theorem kb_real_dup (V W b0 b1 c2 c3 : ℚ) (closed : Bool)
    (hV0 : TOL ≤ V) (hVpi : V ≤ MPI) (hVW : V < W) (hW2 : W ≤ 2 * MPI)
    (hWcl : MPI < W → closed = true) (hb1 : b1 ≤ MPI)
    (hsec2 : ¬(c2 < c3)) :
    KBundle closed (intersectRanges ⟨-W, -V, V, W⟩ ⟨b0, b1, c2, c3⟩ closed).1 := by
  have hMPI3 := MPI_gt3
  have hMPI4 := MPI_lt4
  have hTOL := TOL_pos
  have hTOLs := TOL_small
  have hne : ¬((1 : ℚ) < -1) := by norm_num
  have hg : stage1 ⟨-W, -V, V, W⟩ ⟨b0, b1, c2, c3⟩
      = ⟨max (-W) b0, min (-V) b1, max V b0, min W b1⟩ := by
    simp only [stage1]
    rw [if_pos (show (V : ℚ) < W from hVW), if_pos (show (V : ℚ) < W from hVW),
      if_neg hsec2, if_neg hsec2]
  simp only [intersectRanges, hg]
  set g0 := max (-W) b0 with hge0
  set g1 := min (-V) b1 with hge1
  set g2 := max V b0 with hge2
  set g3 := min W b1 with hge3
  have k1 : -W ≤ g0 := le_max_left _ _
  have k3 : g1 ≤ -V := min_le_left _ _
  have k5 : V ≤ g2 := le_max_left _ _
  have k7 : g3 ≤ W := min_le_left _ _
  have k8 : g3 ≤ b1 := min_le_right _ _
  clear_value g0 g1 g2 g3
  clear hge0 hge1 hge2 hge3
  have hP : ¬(g2 < g1 + TOL ∧ g2 < g3) := by
    rintro ⟨h, -⟩; linarith
  have hW : ¬(g2 < g3 ∧ MPI < g3) := by
    rintro ⟨-, h⟩; linarith
  by_cases hA : closed = true ∧ g0 < -MPI + TOL ∧ MPI - TOL < g3
  · have e2 : apoUnion closed ⟨g0, g1, g2, g3⟩
        = ⟨min g0 (g2 - 2 * MPI), max g1 (g3 - 2 * MPI), 1, -1⟩ := by
      rw [apoUnion_eq, if_pos hA]
    have e3 : periUnion ⟨min g0 (g2 - 2 * MPI), max g1 (g3 - 2 * MPI), 1, -1⟩
        = ⟨min g0 (g2 - 2 * MPI), max g1 (g3 - 2 * MPI), 1, -1⟩ := by
      rw [periUnion_eq, if_neg]; rintro ⟨-, h⟩; exact hne h
    have e4 : wrapSwap ⟨min g0 (g2 - 2 * MPI), max g1 (g3 - 2 * MPI), 1, -1⟩
        = ⟨min g0 (g2 - 2 * MPI), max g1 (g3 - 2 * MPI), 1, -1⟩ := by
      rw [wrapSwap, if_neg]; rintro ⟨h, -⟩; exact hne h
    have e5 : emptySwap ⟨min g0 (g2 - 2 * MPI), max g1 (g3 - 2 * MPI), 1, -1⟩
        = ⟨min g0 (g2 - 2 * MPI), max g1 (g3 - 2 * MPI), 1, -1⟩ := by
      rw [emptySwap, if_neg]; rintro ⟨h, -⟩; exact hne h
    rw [e2, e3, e4, e5]
    have hclf : ¬(closed = false) := by
      intro h; rw [hA.1] at h; exact Bool.noConfusion h
    have hF0l : -(2 * MPI) - TOL ≤ min g0 (g2 - 2 * MPI) :=
      le_min (by linarith) (by linarith)
    have hF1u : max g1 (g3 - 2 * MPI) ≤ 3 * MPI / 2 :=
      max_le (by linarith) (by linarith)
    by_cases hC : 2 * MPI ≤ max g1 (g3 - 2 * MPI) - min g0 (g2 - 2 * MPI)
    · have e6 : fullCollapse ⟨min g0 (g2 - 2 * MPI), max g1 (g3 - 2 * MPI), 1, -1⟩
          = ⟨-MPI, MPI, 1, -1⟩ := by
        rw [fullCollapse, if_pos hC]
      rw [e6]
      dsimp only [KBundle]
      exact ⟨fun h => (hne h).elim, fun h => ⟨by linarith, by linarith,
        fun h' => (by linarith : False).elim, fun h' => (hclf h').elim⟩,
        fun h => (hne h).elim⟩
    · have e6 : fullCollapse ⟨min g0 (g2 - 2 * MPI), max g1 (g3 - 2 * MPI), 1, -1⟩
          = ⟨min g0 (g2 - 2 * MPI), max g1 (g3 - 2 * MPI), 1, -1⟩ := by
        rw [fullCollapse, if_neg hC]
      rw [e6]
      dsimp only [KBundle]
      exact ⟨fun h => (hne h).elim, fun h => ⟨hF0l, hF1u,
        fun h' => hA.1, fun h' => (hclf h').elim⟩,
        fun h => (hne h).elim⟩
  · have e2 : apoUnion closed ⟨g0, g1, g2, g3⟩ = ⟨g0, g1, g2, g3⟩ := by
      rw [apoUnion_eq, if_neg hA]
    have e3 : periUnion ⟨g0, g1, g2, g3⟩ = ⟨g0, g1, g2, g3⟩ := by
      rw [periUnion_eq, if_neg hP]
    have e4 : wrapSwap ⟨g0, g1, g2, g3⟩ = ⟨g0, g1, g2, g3⟩ := by
      rw [wrapSwap, if_neg hW]
    rw [e2, e3, e4]
    by_cases hE : g2 < g3 ∧ ¬(g0 < g1)
    · have e5 : emptySwap ⟨g0, g1, g2, g3⟩ = ⟨g2, g3, 1, -1⟩ := by
        rw [emptySwap, if_pos hE]
      have e6 : fullCollapse ⟨g2, g3, 1, -1⟩ = ⟨g2, g3, 1, -1⟩ := by
        rw [fullCollapse, if_neg]
        dsimp only
        intro h
        linarith
      rw [e5, e6]
      dsimp only [KBundle]
      exact ⟨fun h => (hne h).elim, fun h => ⟨by linarith, by linarith,
        fun h' => (by linarith : False).elim, fun _ => by linarith⟩,
        fun h => (hne h).elim⟩
    · have e5 : emptySwap ⟨g0, g1, g2, g3⟩ = ⟨g0, g1, g2, g3⟩ := by
        rw [emptySwap, if_neg hE]
      have e6 : fullCollapse ⟨g0, g1, g2, g3⟩ = ⟨g0, g1, g2, g3⟩ := by
        rw [fullCollapse, if_neg]
        dsimp only
        intro h
        linarith
      rw [e5, e6]
      dsimp only [KBundle]
      refine ⟨fun h => ?_, fun h => ⟨by linarith, by linarith,
        fun h' => hWcl (by linarith [le_max_left (-W) b0]), fun _ => by linarith⟩,
        fun h => ⟨by linarith, by linarith, by linarith⟩⟩
      by_contra hno
      exact hE ⟨h, hno⟩

/-- Config lemma: `fs1` two symmetric ranges, `fs2` the two
plane-proximity bands with non-empty second band. -/
theorem kb_real_band (V W fn1 fn2 d1 d2 : ℚ) (closed : Bool)
    (hV0 : TOL ≤ V) (hVpi : V ≤ MPI) (hVW : V < W) (hW2 : W ≤ 2 * MPI)
    (hWcl : MPI < W → closed = true)
    (hfn1l : -MPI ≤ fn1) (hfn1u : fn1 ≤ 0) (hfn2l : 0 ≤ fn2)
    (hfn2u : fn2 ≤ MPI)
    (hrel : fn2 = fn1 + MPI ∨ (fn1 = 0 ∧ fn2 = 0))
    (hd1l : -(MPI / 2) ≤ d1) (hd1u : d1 ≤ MPI / 2)
    (hd2l : -(MPI / 2) ≤ d2) (hd2u : d2 ≤ MPI / 2)
    (hd2p : fn2 - d2 < fn2 + d2) :
    KBundle closed (intersectRanges ⟨-W, -V, V, W⟩
      ⟨fn1 - d1, fn1 + d1, fn2 - d2, fn2 + d2⟩ closed).1 := by
  have hMPI3 := MPI_gt3
  have hMPI4 := MPI_lt4
  have hTOL := TOL_pos
  have hTOLs := TOL_small
  have hne : ¬((1 : ℚ) < -1) := by norm_num
  have hg : stage1 ⟨-W, -V, V, W⟩ ⟨fn1 - d1, fn1 + d1, fn2 - d2, fn2 + d2⟩
      = ⟨max (-W) (fn1 - d1), min (-V) (fn1 + d1),
         max V (fn2 - d2), min W (fn2 + d2)⟩ := by
    simp only [stage1]
    rw [if_pos (show (V : ℚ) < W from hVW), if_pos (show (V : ℚ) < W from hVW),
      if_pos hd2p, if_pos hd2p]
  simp only [intersectRanges, hg]
  set g0 := max (-W) (fn1 - d1) with hge0
  set g1 := min (-V) (fn1 + d1) with hge1
  set g2 := max V (fn2 - d2) with hge2
  set g3 := min W (fn2 + d2) with hge3
  have k1 : -W ≤ g0 := le_max_left _ _
  have k2 : fn1 - d1 ≤ g0 := le_max_right _ _
  have k3 : g1 ≤ -V := min_le_left _ _
  have k5 : V ≤ g2 := le_max_left _ _
  have k6 : fn2 - d2 ≤ g2 := le_max_right _ _
  have k7 : g3 ≤ W := min_le_left _ _
  have k8 : g3 ≤ fn2 + d2 := min_le_right _ _
  clear_value g0 g1 g2 g3
  clear hge0 hge1 hge2 hge3
  have hP : ¬(g2 < g1 + TOL ∧ g2 < g3) := by
    rintro ⟨h, -⟩; linarith
  by_cases hA : closed = true ∧ g0 < -MPI + TOL ∧ MPI - TOL < g3
  · have e2 : apoUnion closed ⟨g0, g1, g2, g3⟩
        = ⟨min g0 (g2 - 2 * MPI), max g1 (g3 - 2 * MPI), 1, -1⟩ := by
      rw [apoUnion_eq, if_pos hA]
    have e3 : periUnion ⟨min g0 (g2 - 2 * MPI), max g1 (g3 - 2 * MPI), 1, -1⟩
        = ⟨min g0 (g2 - 2 * MPI), max g1 (g3 - 2 * MPI), 1, -1⟩ := by
      rw [periUnion_eq, if_neg]; rintro ⟨-, h⟩; exact hne h
    have e4 : wrapSwap ⟨min g0 (g2 - 2 * MPI), max g1 (g3 - 2 * MPI), 1, -1⟩
        = ⟨min g0 (g2 - 2 * MPI), max g1 (g3 - 2 * MPI), 1, -1⟩ := by
      rw [wrapSwap, if_neg]; rintro ⟨h, -⟩; exact hne h
    have e5 : emptySwap ⟨min g0 (g2 - 2 * MPI), max g1 (g3 - 2 * MPI), 1, -1⟩
        = ⟨min g0 (g2 - 2 * MPI), max g1 (g3 - 2 * MPI), 1, -1⟩ := by
      rw [emptySwap, if_neg]; rintro ⟨h, -⟩; exact hne h
    rw [e2, e3, e4, e5]
    have hclf : ¬(closed = false) := by
      intro h; rw [hA.1] at h; exact Bool.noConfusion h
    have hF0l : -(2 * MPI) - TOL ≤ min g0 (g2 - 2 * MPI) :=
      le_min (by linarith) (by linarith)
    have hF1u : max g1 (g3 - 2 * MPI) ≤ 3 * MPI / 2 :=
      max_le (by linarith) (by linarith)
    by_cases hC : 2 * MPI ≤ max g1 (g3 - 2 * MPI) - min g0 (g2 - 2 * MPI)
    · have e6 : fullCollapse ⟨min g0 (g2 - 2 * MPI), max g1 (g3 - 2 * MPI), 1, -1⟩
          = ⟨-MPI, MPI, 1, -1⟩ := by
        rw [fullCollapse, if_pos hC]
      rw [e6]
      dsimp only [KBundle]
      exact ⟨fun h => (hne h).elim, fun h => ⟨by linarith, by linarith,
        fun h' => (by linarith : False).elim, fun h' => (hclf h').elim⟩,
        fun h => (hne h).elim⟩
    · have e6 : fullCollapse ⟨min g0 (g2 - 2 * MPI), max g1 (g3 - 2 * MPI), 1, -1⟩
          = ⟨min g0 (g2 - 2 * MPI), max g1 (g3 - 2 * MPI), 1, -1⟩ := by
        rw [fullCollapse, if_neg hC]
      rw [e6]
      dsimp only [KBundle]
      exact ⟨fun h => (hne h).elim, fun h => ⟨hF0l, hF1u,
        fun h' => hA.1, fun h' => (hclf h').elim⟩,
        fun h => (hne h).elim⟩
  · have e2 : apoUnion closed ⟨g0, g1, g2, g3⟩ = ⟨g0, g1, g2, g3⟩ := by
      rw [apoUnion_eq, if_neg hA]
    have e3 : periUnion ⟨g0, g1, g2, g3⟩ = ⟨g0, g1, g2, g3⟩ := by
      rw [periUnion_eq, if_neg hP]
    rw [e2, e3]
    by_cases hw : g2 < g3 ∧ MPI < g3
    · have e4 : wrapSwap ⟨g0, g1, g2, g3⟩
          = ⟨g2 - 2 * MPI, g3 - 2 * MPI, g0, g1⟩ := by
        rw [wrapSwap, if_pos hw]
      have e5 : emptySwap ⟨g2 - 2 * MPI, g3 - 2 * MPI, g0, g1⟩
          = ⟨g2 - 2 * MPI, g3 - 2 * MPI, g0, g1⟩ := by
        rw [emptySwap, if_neg]
        rintro ⟨-, h⟩
        exact h (by dsimp only; linarith [hw.1])
      have e6 : fullCollapse ⟨g2 - 2 * MPI, g3 - 2 * MPI, g0, g1⟩
          = ⟨g2 - 2 * MPI, g3 - 2 * MPI, g0, g1⟩ := by
        rw [fullCollapse, if_neg]
        dsimp only
        intro h
        linarith
      rw [e4, e5, e6]
      have hclT : closed = true := hWcl (by linarith [hw.2])
      have hg0big : -MPI + TOL ≤ g0 := by
        by_contra hneg
        exact hA ⟨hclT, by linarith, by linarith [hw.2]⟩
      dsimp only [KBundle]
      refine ⟨fun h => by linarith [hw.1], fun h => ⟨?_, by linarith,
        fun h' => hclT, fun h' => Bool.noConfusion (h' ▸ hclT)⟩,
        fun h => ⟨by linarith, by linarith, ?_⟩⟩
      · have : MPI - 2 * d2 ≤ fn2 - d2 := by linarith
        linarith [hw.2]
      · rcases hrel with h' | ⟨h1', h2'⟩ <;> linarith
    · have e4 : wrapSwap ⟨g0, g1, g2, g3⟩ = ⟨g0, g1, g2, g3⟩ := by
        rw [wrapSwap, if_neg hw]
      rw [e4]
      by_cases hE : g2 < g3 ∧ ¬(g0 < g1)
      · have e5 : emptySwap ⟨g0, g1, g2, g3⟩ = ⟨g2, g3, 1, -1⟩ := by
          rw [emptySwap, if_pos hE]
        have hg3u : g3 ≤ MPI := by
          by_contra hgt
          exact hw ⟨hE.1, by linarith⟩
        have e6 : fullCollapse ⟨g2, g3, 1, -1⟩ = ⟨g2, g3, 1, -1⟩ := by
          rw [fullCollapse, if_neg]
          dsimp only
          intro h
          linarith
        rw [e5, e6]
        dsimp only [KBundle]
        exact ⟨fun h => (hne h).elim, fun h => ⟨by linarith, by linarith,
          fun h' => (by linarith : False).elim, fun _ => by linarith⟩,
          fun h => (hne h).elim⟩
      · have e5 : emptySwap ⟨g0, g1, g2, g3⟩ = ⟨g0, g1, g2, g3⟩ := by
          rw [emptySwap, if_neg hE]
        have e6 : fullCollapse ⟨g0, g1, g2, g3⟩ = ⟨g0, g1, g2, g3⟩ := by
          rw [fullCollapse, if_neg]
          dsimp only
          intro h
          linarith
        rw [e5, e6]
        dsimp only [KBundle]
        refine ⟨fun h => ?_, fun h => ⟨by linarith, by linarith,
          fun h' => hWcl (by linarith [le_max_left (-W) (fn1 - d1)]),
          fun _ => by linarith⟩,
          fun h => ⟨by linarith, ?_, by linarith⟩⟩
        · by_contra hno
          exact hE ⟨h, hno⟩
        · by_contra hgt
          exact hw ⟨h, by linarith⟩

/-! ### C3 assembly: shapes of the two band computations -/

/-- Clamping into `[-1, 1]` lands in `[-1, 1]`. -/
theorem clampQ_mem (x : ℚ) : -1 ≤ clampQ (-1) 1 x ∧ clampQ (-1) 1 x ≤ 1 := by
  unfold clampQ
  exact ⟨le_max_left _ _, max_le (by norm_num) (min_le_left _ _)⟩

/-- A non-negative quantity that is not approximately zero is at least
the tolerance. -/
theorem notZero_ge_TOL (x : ℚ) (h0 : 0 ≤ x) (h : ¬zeroQ x) : TOL ≤ x := by
  rw [zeroQ_iff] at h
  push_neg at h
  have := TOL_pos
  exact h (by linarith)

/-- A `sign * acos` product stays within `[-π, π]`. -/
theorem csign_mul_mem (x A : ℚ) (h0 : 0 ≤ A) (hM : A ≤ MPI) :
    -MPI ≤ csign x * A ∧ csign x * A ≤ MPI := by
  have := MPI_pos
  unfold csign
  split_ifs <;> constructor <;> linarith

/-- Shape of the radius-band if-tree: given periapsis- and apoapsis-band
anomalies in `[0, π]`, the four branches produce either a duplicated
single range (empty second pair) with the `kb_dup` bounds, or the
symmetric two-range form with the `kb_real` bounds. -/
theorem rbCore_shape (closed : Bool) (fpe fap : ℚ)
    (hpe0 : 0 ≤ fpe) (hpeM : fpe ≤ MPI) (hap0 : 0 ≤ fap) (hapM : fap ≤ MPI)
    (rb : R4)
    (hrb : rb = if closed = true ∧ zeroQ (min fap fpe) ∧ ¬(max fap fpe < MPI)
        then ⟨-(2 * MPI), 2 * MPI, 1, -1⟩
      else if zeroQ (min fap fpe) then ⟨-(max fap fpe), max fap fpe, 1, -1⟩
      else if closed = true ∧ ¬(max fap fpe < MPI) then
        ⟨-(2 * MPI), -(min fap fpe), min fap fpe, 2 * MPI⟩
      else ⟨-(max fap fpe), -(min fap fpe), min fap fpe, max fap fpe⟩) :
    (¬(rb.f2 < rb.f3) ∧ -(2 * MPI) ≤ rb.f0 ∧ (rb.f0 < -MPI → closed = true) ∧
      (closed = false → rb.f1 ≤ MPI)) ∨
    (∃ V W, rb = ⟨-W, -V, V, W⟩ ∧ TOL ≤ V ∧ V ≤ MPI ∧ V < W ∧ W ≤ 2 * MPI ∧
      (MPI < W → closed = true)) := by
  have hMPI3 := MPI_gt3
  have hTOL := TOL_pos
  set f1 := min fap fpe with hf1d
  set f2 := max fap fpe with hf2d
  have hf10 : 0 ≤ f1 := le_min hap0 hpe0
  have hf12 : f1 ≤ f2 := min_le_max
  have hf2M : f2 ≤ MPI := max_le hapM hpeM
  by_cases hb1 : closed = true ∧ zeroQ f1 ∧ ¬(f2 < MPI)
  · rw [if_pos hb1] at hrb
    subst hrb
    left
    dsimp only
    exact ⟨by norm_num, le_refl _, fun _ => hb1.1,
      fun hF => (Bool.noConfusion (hF ▸ hb1.1) : _)⟩
  · rw [if_neg hb1] at hrb
    by_cases hz : zeroQ f1
    · rw [if_pos hz] at hrb
      subst hrb
      left
      dsimp only
      exact ⟨by norm_num, by linarith, fun h => ((by linarith : False).elim),
        fun _ => by linarith⟩
    · rw [if_neg hz] at hrb
      have hTf1 : TOL ≤ f1 := notZero_ge_TOL f1 hf10 hz
      by_cases hb3 : closed = true ∧ ¬(f2 < MPI)
      · rw [if_pos hb3] at hrb
        right
        exact ⟨f1, 2 * MPI, hrb, hTf1, le_trans hf12 hf2M, by linarith,
          le_refl _, fun _ => hb3.1⟩
      · rw [if_neg hb3] at hrb
        by_cases hVW : f1 < f2
        · right
          exact ⟨f1, f2, hrb, hTf1, le_trans hf12 hf2M, hVW, by linarith,
            fun h => ((by linarith : False).elim)⟩
        · left
          subst hrb
          dsimp only
          exact ⟨fun h => hVW (by linarith), by linarith,
            fun h => ((by linarith : False).elim), fun _ => by linarith⟩

/-- Shape of the radius bands written by `intercept_intersect`:
either a duplicated single range with the `kb_dup` bounds, or the
symmetric two-range form with the `kb_real` bounds. -/
theorem radiusBands_shape (ext : Collab) (o1 o2 : Orbit) (threshold : ℚ) :
    (¬((radiusBands ext o1 o2 threshold).f2 <
        (radiusBands ext o1 o2 threshold).f3) ∧
      -(2 * MPI) ≤ (radiusBands ext o1 o2 threshold).f0 ∧
      ((radiusBands ext o1 o2 threshold).f0 < -MPI →
        conicClosed o1.e = true) ∧
      (conicClosed o1.e = false →
        (radiusBands ext o1 o2 threshold).f1 ≤ MPI)) ∨
    (∃ V W, radiusBands ext o1 o2 threshold = ⟨-W, -V, V, W⟩ ∧
      TOL ≤ V ∧ V ≤ MPI ∧ V < W ∧ W ≤ 2 * MPI ∧
      (MPI < W → conicClosed o1.e = true)) := by
  refine rbCore_shape (conicClosed o1.e)
    (if conicCircular o1.e = true then 0
      else ext.trueAnomalyFromRadius o1.p o1.e
        (conicPeriapsis o2.p o2.e - threshold))
    (if conicCircular o1.e = true ∨ ¬(conicClosed o2.e = true) then
        ext.maxTrueAnomaly o1.e
      else ext.trueAnomalyFromRadius o1.p o1.e
        (conicApoapsis o2.p o2.e + threshold))
    ?_ ?_ ?_ ?_ (radiusBands ext o1 o2 threshold) rfl
  · split_ifs with h
    · exact le_refl 0
    · exact (ext.taf_mem _ _ _).1
  · split_ifs with h
    · exact le_of_lt MPI_pos
    · exact le_trans (ext.taf_mem _ _ _).2 (ext.maxTA_mem o1.e).2
  · split_ifs with h
    · exact (ext.maxTA_mem o1.e).1
    · exact (ext.taf_mem _ _ _).1
  · split_ifs with h
    · exact (ext.maxTA_mem o1.e).2
    · exact le_trans (ext.taf_mem _ _ _).2 (ext.maxTA_mem o1.e).2

/-- Shape of the two node bands: given the ascending-node anomaly in
`[-π, π]` and half-widths in `[-π/2, π/2]`, the band pair around the two
nodes is either a duplicated-range form (second band empty) or the band
form with the `kb_band` bounds. -/
theorem pbCore_shape (fan d1 d2 : ℚ) (pb : R4)
    (hpb : pb = ⟨min fan (fan - csign fan * MPI) - d1,
                 min fan (fan - csign fan * MPI) + d1,
                 max fan (fan - csign fan * MPI) - d2,
                 max fan (fan - csign fan * MPI) + d2⟩)
    (hfl : -MPI ≤ fan) (hfu : fan ≤ MPI)
    (hd1l : -(MPI / 2) ≤ d1) (hd1u : d1 ≤ MPI / 2)
    (hd2l : -(MPI / 2) ≤ d2) (hd2u : d2 ≤ MPI / 2) :
    (¬(pb.f2 < pb.f3) ∧ pb.f1 ≤ MPI) ∨
    (∃ fn1 fn2 D1 D2, pb = ⟨fn1 - D1, fn1 + D1, fn2 - D2, fn2 + D2⟩ ∧
      -MPI ≤ fn1 ∧ fn1 ≤ 0 ∧ 0 ≤ fn2 ∧ fn2 ≤ MPI ∧
      (fn2 = fn1 + MPI ∨ (fn1 = 0 ∧ fn2 = 0)) ∧
      -(MPI / 2) ≤ D1 ∧ D1 ≤ MPI / 2 ∧ -(MPI / 2) ≤ D2 ∧ D2 ≤ MPI / 2 ∧
      fn2 - D2 < fn2 + D2) := by
  have hMPI3 := MPI_gt3
  subst hpb
  rcases lt_trichotomy fan 0 with hneg | hzero | hpos
  · have hfdn : fan - csign fan * MPI = fan + MPI := by
      unfold csign
      rw [if_neg (by linarith), if_pos hneg]
      ring
    rw [hfdn, min_eq_left (by linarith), max_eq_right (by linarith)]
    by_cases hd2p : fan + MPI - d2 < fan + MPI + d2
    · right
      exact ⟨fan, fan + MPI, d1, d2, rfl, hfl, by linarith, by linarith,
        by linarith, Or.inl rfl, hd1l, hd1u, hd2l, hd2u, hd2p⟩
    · left
      dsimp only
      exact ⟨hd2p, by linarith⟩
  · have hfdn : fan - csign fan * MPI = fan := by
      unfold csign
      rw [if_neg (by linarith), if_neg (by linarith)]
      ring
    rw [hfdn, min_self, max_self, hzero]
    by_cases hd2p : (0 : ℚ) - d2 < 0 + d2
    · right
      exact ⟨0, 0, d1, d2, rfl, by linarith, le_refl 0, le_refl 0,
        by linarith, Or.inr ⟨rfl, rfl⟩, hd1l, hd1u, hd2l, hd2u, hd2p⟩
    · left
      dsimp only
      exact ⟨hd2p, by linarith⟩
  · have hfdn : fan - csign fan * MPI = fan - MPI := by
      unfold csign
      rw [if_pos hpos]
      ring
    rw [hfdn, min_eq_right (by linarith), max_eq_left (by linarith)]
    by_cases hd2p : fan - d2 < fan + d2
    · right
      exact ⟨fan - MPI, fan, d1, d2, rfl, by linarith, by linarith,
        by linarith, hfu, Or.inl (by ring), hd1l, hd1u, hd2l, hd2u, hd2p⟩
    · left
      dsimp only
      exact ⟨hd2p, by linarith⟩

/-- Shape of the plane-proximity bands written by `intercept_intersect`:
either a duplicated-range form or the band form with bounded node
anomalies and half-widths. -/
theorem planeBands_shape (ext : Collab) (o1 o2 : Orbit) (threshold : ℚ) :
    (¬((planeBands ext o1 o2 threshold).f2 <
        (planeBands ext o1 o2 threshold).f3) ∧
      (planeBands ext o1 o2 threshold).f1 ≤ MPI) ∨
    (∃ fn1 fn2 D1 D2, planeBands ext o1 o2 threshold
        = ⟨fn1 - D1, fn1 + D1, fn2 - D2, fn2 + D2⟩ ∧
      -MPI ≤ fn1 ∧ fn1 ≤ 0 ∧ 0 ≤ fn2 ∧ fn2 ≤ MPI ∧
      (fn2 = fn1 + MPI ∨ (fn1 = 0 ∧ fn2 = 0)) ∧
      -(MPI / 2) ≤ D1 ∧ D1 ≤ MPI / 2 ∧ -(MPI / 2) ≤ D2 ∧ D2 ≤ MPI / 2 ∧
      fn2 - D2 < fn2 + D2) := by
  by_cases hN : dotV (crossV o1.normalAxis o2.normalAxis)
      (crossV o1.normalAxis o2.normalAxis) < EPS
  · left
    have he : planeBands ext o1 o2 threshold = ⟨-MPI, MPI, 1, -1⟩ := by
      simp only [planeBands]
      rw [if_pos hN]
    rw [he]
    exact ⟨by norm_num, le_refl MPI⟩
  · refine pbCore_shape
      (csign (dotV o1.minorAxis (crossV o1.normalAxis o2.normalAxis)) *
        ext.acos (clampQ (-1) 1
          (dotV o1.majorAxis (crossV o1.normalAxis o2.normalAxis) /
            ext.sqrt (dotV (crossV o1.normalAxis o2.normalAxis)
              (crossV o1.normalAxis o2.normalAxis)))))
      (ext.asin (clampQ (-1) 1
        (ext.sin (threshold / (2 * (o1.p / (1 + o1.e * ext.cos
          (min
            (csign (dotV o1.minorAxis (crossV o1.normalAxis o2.normalAxis)) *
              ext.acos (clampQ (-1) 1
                (dotV o1.majorAxis (crossV o1.normalAxis o2.normalAxis) /
                  ext.sqrt (dotV (crossV o1.normalAxis o2.normalAxis)
                    (crossV o1.normalAxis o2.normalAxis)))))
            (csign (dotV o1.minorAxis (crossV o1.normalAxis o2.normalAxis)) *
              ext.acos (clampQ (-1) 1
                (dotV o1.majorAxis (crossV o1.normalAxis o2.normalAxis) /
                  ext.sqrt (dotV (crossV o1.normalAxis o2.normalAxis)
                    (crossV o1.normalAxis o2.normalAxis)))) -
              csign
                (csign (dotV o1.minorAxis
                    (crossV o1.normalAxis o2.normalAxis)) *
                  ext.acos (clampQ (-1) 1
                    (dotV o1.majorAxis (crossV o1.normalAxis o2.normalAxis) /
                      ext.sqrt (dotV (crossV o1.normalAxis o2.normalAxis)
                        (crossV o1.normalAxis o2.normalAxis))))) * MPI)))))) /
          ext.sin
            (|csign (dotV o1.normalAxis o2.normalAxis) *
              ext.asin (clampQ (-1) 1
                (ext.sqrt (dotV (crossV o1.normalAxis o2.normalAxis)
                  (crossV o1.normalAxis o2.normalAxis))))| / 2))))
      (ext.asin (clampQ (-1) 1
        (ext.sin (threshold / (2 * (o1.p / (1 + o1.e * ext.cos
          (max
            (csign (dotV o1.minorAxis (crossV o1.normalAxis o2.normalAxis)) *
              ext.acos (clampQ (-1) 1
                (dotV o1.majorAxis (crossV o1.normalAxis o2.normalAxis) /
                  ext.sqrt (dotV (crossV o1.normalAxis o2.normalAxis)
                    (crossV o1.normalAxis o2.normalAxis)))))
            (csign (dotV o1.minorAxis (crossV o1.normalAxis o2.normalAxis)) *
              ext.acos (clampQ (-1) 1
                (dotV o1.majorAxis (crossV o1.normalAxis o2.normalAxis) /
                  ext.sqrt (dotV (crossV o1.normalAxis o2.normalAxis)
                    (crossV o1.normalAxis o2.normalAxis)))) -
              csign
                (csign (dotV o1.minorAxis
                    (crossV o1.normalAxis o2.normalAxis)) *
                  ext.acos (clampQ (-1) 1
                    (dotV o1.majorAxis (crossV o1.normalAxis o2.normalAxis) /
                      ext.sqrt (dotV (crossV o1.normalAxis o2.normalAxis)
                        (crossV o1.normalAxis o2.normalAxis))))) * MPI)))))) /
          ext.sin
            (|csign (dotV o1.normalAxis o2.normalAxis) *
              ext.asin (clampQ (-1) 1
                (ext.sqrt (dotV (crossV o1.normalAxis o2.normalAxis)
                  (crossV o1.normalAxis o2.normalAxis))))| / 2))))
      (planeBands ext o1 o2 threshold)
      ?_ ?_ ?_ ?_ ?_ ?_ ?_
    · simp only [planeBands]
      rw [if_neg hN]
    · exact (csign_mul_mem _ _
        (ext.acos_mem _ (clampQ_mem _).1 (clampQ_mem _).2).1
        (ext.acos_mem _ (clampQ_mem _).1 (clampQ_mem _).2).2).1
    · exact (csign_mul_mem _ _
        (ext.acos_mem _ (clampQ_mem _).1 (clampQ_mem _).2).1
        (ext.acos_mem _ (clampQ_mem _).1 (clampQ_mem _).2).2).2
    · exact (ext.asin_mem _ (clampQ_mem _).1 (clampQ_mem _).2).1
    · exact (ext.asin_mem _ (clampQ_mem _).1 (clampQ_mem _).2).2
    · exact (ext.asin_mem _ (clampQ_mem _).1 (clampQ_mem _).2).1
    · exact (ext.asin_mem _ (clampQ_mem _).1 (clampQ_mem _).2).2

/-- C3 (amended): whenever `intercept_intersect` writes its output
ranges, they satisfy: a non-empty second pair forces a non-empty first
pair; the first pair has begin at least `-2π - √DBL_EPSILON` and end at
most `3π/2` (at most `π` when orbit 1 is open), and its begin drops
below `-π` only when orbit 1 is closed; the second pair lies within
`[-π, π]` and never precedes the first pair.  (The original claim's
`[-2π, π]` window for the first pair is violated at both ends, see
`c3_counterexample`.) -/
theorem interceptIntersect_wf (ext : Collab) (o1 o2 : Orbit)
    (threshold : ℚ) (n : ℕ) (g : R4)
    (h : interceptIntersect ext o1 o2 threshold = (n, some g)) :
    KBundle (conicClosed o1.e) g := by
  simp only [interceptIntersect] at h
  by_cases h1 : o1.radial = true ∨ o2.radial = true
  · rw [if_pos h1, Prod.mk.injEq] at h
    exact Option.noConfusion h.2
  · rw [if_neg h1] at h
    by_cases h2 : (conicClosed o1.e = true ∧
        conicApoapsis o1.p o1.e ≤ conicPeriapsis o2.p o2.e - threshold) ∨
      (conicClosed o2.e = true ∧
        conicApoapsis o2.p o2.e ≤ conicPeriapsis o1.p o1.e - threshold)
    · rw [if_pos h2, Prod.mk.injEq] at h
      exact Option.noConfusion h.2
    · rw [if_neg h2, Prod.mk.injEq] at h
      have hg : g = (intersectRanges (radiusBands ext o1 o2 threshold)
          (planeBands ext o1 o2 threshold) (conicClosed o1.e)).1 :=
        (Option.some.inj h.2).symm
      rw [hg]
      rcases radiusBands_shape ext o1 o2 threshold with
        ⟨hs1, ha0, ha0cl, ha1op⟩ |
        ⟨V, W, hrbeq, hV0, hVpi, hVW, hW2, hWcl⟩
      · rcases planeBands_shape ext o1 o2 threshold with ⟨hs2, hb1⟩ |
          ⟨fn1, fn2, d1, d2, hpbeq, hfn1l, hfn1u, hfn2l, hfn2u, hrel,
            hd1l, hd1u, hd2l, hd2u, hd2p⟩
        · exact kb_dup_dup (radiusBands ext o1 o2 threshold).f0
            (radiusBands ext o1 o2 threshold).f1
            (planeBands ext o1 o2 threshold).f0
            (planeBands ext o1 o2 threshold).f1
            (radiusBands ext o1 o2 threshold).f2
            (radiusBands ext o1 o2 threshold).f3
            (planeBands ext o1 o2 threshold).f2
            (planeBands ext o1 o2 threshold).f3
            (conicClosed o1.e) ha0 ha0cl hb1 hs1 hs2
        · rw [hpbeq]
          exact kb_dup_band (radiusBands ext o1 o2 threshold).f0
            (radiusBands ext o1 o2 threshold).f1
            (radiusBands ext o1 o2 threshold).f2
            (radiusBands ext o1 o2 threshold).f3
            fn1 fn2 d1 d2 (conicClosed o1.e) ha0 ha0cl ha1op
            hfn1l hfn1u hfn2l hfn2u hrel hd1l hd1u hd2l hd2u hs1 hd2p
      · rw [hrbeq]
        rcases planeBands_shape ext o1 o2 threshold with ⟨hs2, hb1⟩ |
          ⟨fn1, fn2, d1, d2, hpbeq, hfn1l, hfn1u, hfn2l, hfn2u, hrel,
            hd1l, hd1u, hd2l, hd2u, hd2p⟩
        · exact kb_real_dup V W
            (planeBands ext o1 o2 threshold).f0
            (planeBands ext o1 o2 threshold).f1
            (planeBands ext o1 o2 threshold).f2
            (planeBands ext o1 o2 threshold).f3
            (conicClosed o1.e) hV0 hVpi hVW hW2 hWcl hb1 hs2
        · rw [hpbeq]
          exact kb_real_band V W fn1 fn2 d1 d2 (conicClosed o1.e)
            hV0 hVpi hVW hW2 hWcl hfn1l hfn1u hfn2l hfn2u hrel
            hd1l hd1u hd2l hd2u hd2p

/-- Witness for the amended C3 at a concrete pair of circular orbits,
where the written ranges are `(0,0) (0,0)`. -/
theorem interceptIntersect_wf_witness :
    KBundle (conicClosed orbitCircUnit.e) ⟨0, 0, 0, 0⟩ :=
  interceptIntersect_wf extZero orbitCircUnit orbitCircUnit 1 0 ⟨0, 0, 0, 0⟩
    (by norm_num [interceptIntersect, radiusBands, planeBands,
      intersectRanges, stage1, apoUnion, periUnion, wrapSwap, emptySwap,
      fullCollapse, rangeCount, conicClosed, conicCircular, conicApoapsis,
      conicPeriapsis, zeroQ, EPS, MPI, crossV, dotV, extZero, orbitCircUnit])

/-- A collaborator instance satisfying every interface fact, chosen to
drive `intercept_intersect` into the periapsis-merge of the two plane
bands: near-coplanar planes make both half-widths approach `π/2`, and
the touch at periapsis merges the bands into one range ending near
`3π/2`. -/
def extC3 : Collab where
  sqrt := fun x => if x = 1 / 1099511627776 then 1 / 1048576 else 0
  sin := fun x => if x = 1 / 4 then 1 / 2 else if x = 5 then 1 / 16
    else if x = 25 / 4 then 3 / 4 else 0
  cos := fun x => if x = -(TOL / 2) then 0 else 1 / 2
  asin := fun x => if x = 1 then MPI / 2
    else if x = 1 / 8 then MPI / 2 - TOL / 2 else 1 / 2
  acos := fun x => if x = -(4 / 5) then MPI - TOL / 2 else 0
  trueAnomalyFromRadius := fun _ _ r => if r < 0 then 0 else MPI
  maxTrueAnomaly := fun _ => MPI
  meanMotion := fun _ _ _ => 1
  meanToTrue := fun _ _ => 0
  trueToMean := fun _ _ => 0
  meanToEccentric := fun _ _ => 0
  periapsisVelocity := fun _ _ _ => 0
  positionE := fun _ _ => ⟨0, 0, 0⟩
  velocityE := fun _ _ => ⟨0, 0, 0⟩
  asin_mem := by
    intro x h1 h2
    dsimp only
    split_ifs <;> constructor <;> norm_num [MPI, TOL]
  acos_mem := by
    intro x h1 h2
    dsimp only
    split_ifs <;> constructor <;> norm_num [MPI, TOL]
  taf_mem := by
    intro p e r
    dsimp only
    split_ifs <;> constructor <;> norm_num [MPI]
  maxTA_mem := fun _ => ⟨le_of_lt MPI_pos, le_refl MPI⟩
  meanMotion_nonneg := fun _ _ _ => by norm_num

/-- Orbit 1 of the C3 counterexample: closed ellipse, `e = 1/2`, axes
rotated so the ascending node sits a half-tolerance before periapsis. -/
def o1C3 : Orbit :=
  ⟨1, 1, 1 / 2, 0, false, ⟨3 / 5, -(4 / 5), 0⟩, ⟨4 / 5, 3 / 5, 0⟩,
    ⟨0, 0, 1⟩⟩

/-- Orbit 2 of the C3 counterexample: open hyperbola whose plane is
tilted from orbit 1's by a tiny (but not approximately-zero) angle. -/
def o2C3 : Orbit :=
  ⟨1, 3, 2, 0, false, ⟨1, 0, 0⟩, ⟨0, 1, 0⟩, ⟨1 / 1048576, 0, 1⟩⟩

/-- C3 counterexample: a concrete non-radial orbit pair and non-negative
threshold for which `intercept_intersect` writes a first pair whose end,
`3π/2 - √DBL_EPSILON/2`, lies strictly beyond the claimed `π` bound. -/
theorem c3_counterexample :
    o1C3.radial = false ∧ o2C3.radial = false ∧ ((0 : ℚ) ≤ 10) ∧
    interceptIntersect extC3 o1C3 o2C3 10
      = (1, some ⟨-(MPI / 2), 3 * MPI / 2 - TOL / 2, 1, -1⟩) ∧
    MPI < 3 * MPI / 2 - TOL / 2 := by
  refine ⟨rfl, rfl, by norm_num, ?_, by norm_num [MPI, TOL]⟩
  have hrb : radiusBands extC3 o1C3 o2C3 10
      = ⟨-(2 * MPI), 2 * MPI, 1, -1⟩ := by
    norm_num [radiusBands, conicCircular, conicClosed, conicPeriapsis,
      conicApoapsis, zeroQ, extC3, o1C3, o2C3, EPS, MPI, min_def, max_def]
  have habs : |(1 : ℚ) / 2| = 1 / 2 := by norm_num
  have hpb : planeBands extC3 o1C3 o2C3 10
      = ⟨-(MPI / 2), MPI / 2 - TOL, MPI / 2 - TOL / 2,
          3 * MPI / 2 - TOL / 2⟩ := by
    norm_num [planeBands, extC3, o1C3, o2C3, crossV, dotV, csign, clampQ,
      EPS, MPI, TOL, min_def, max_def, habs]
  have hcl : conicClosed o1C3.e = true := by
    norm_num [conicClosed, o1C3]
  have hir : intersectRanges ⟨-(2 * MPI), 2 * MPI, 1, -1⟩
      ⟨-(MPI / 2), MPI / 2 - TOL, MPI / 2 - TOL / 2, 3 * MPI / 2 - TOL / 2⟩
      true
      = (⟨-(MPI / 2), 3 * MPI / 2 - TOL / 2, 1, -1⟩, 1) := by
    norm_num [intersectRanges, stage1, apoUnion, periUnion, wrapSwap,
      emptySwap, fullCollapse, rangeCount, zeroQ, EPS, MPI, TOL,
      min_def, max_def]
  simp only [interceptIntersect]
  rw [if_neg (by norm_num [o1C3, o2C3]),
    if_neg (by norm_num [conicClosed, conicApoapsis, conicPeriapsis,
      o1C3, o2C3]),
    hrb, hpb, hcl, hir]

/-! ## `intercept_times` (intercept.c lines 152-257) -/

/-- Lines 190-197: time of a (clamped) true anomaly on one orbit:
`t_pe + M/n` with `M` shifted a full turn down for anomalies below
`-π`. -/
def timeOfAnomaly (ext : Collab) (e tPe n fT0 fT1 : ℚ) (f : ℚ) : ℚ :=
  let fc := clampQ fT0 fT1 f
  let M := ext.trueToMean e fc - (if fc < -MPI then 2 * MPI else 0)
  tPe + M / n

/-- Lines 170-205, one orbit: the four anomaly-range times (pairs left
at the `1, -1` sentinel when the anomaly pair is empty), the orbital
period (0 when open) and the initial whole-orbit count `n_orbit`
(truncated toward zero as the C `(int)trunc` cast). -/
def orbTimes (ext : Collab) (mu : ℚ) (o : Orbit) (t0 t1 : ℚ)
    (fs0 fs1 fs2 fs3 : ℚ) : R4 × ℚ × ℤ :=
  let p := o.p
  let e := o.e
  let tPe := o.tPe
  let n := ext.meanMotion mu p e
  let fT0 := if conicClosed e = true then -MPI
    else ext.meanToTrue e ((t0 - tPe) * n)
  let fT1 := if conicClosed e = true then MPI
    else ext.meanToTrue e ((t1 - tPe) * n)
  let times : R4 :=
    ⟨if fs0 < fs1 then timeOfAnomaly ext e tPe n fT0 fT1 fs0 else 1,
     if fs0 < fs1 then timeOfAnomaly ext e tPe n fT0 fT1 fs1 else -1,
     if fs2 < fs3 then timeOfAnomaly ext e tPe n fT0 fT1 fs2 else 1,
     if fs2 < fs3 then timeOfAnomaly ext e tPe n fT0 fT1 fs3 else -1⟩
  let period := if conicClosed e = true then 2 * MPI / n else 0
  let nOrb : ℤ := if conicClosed e = true then
      cTruncZ ((t0 - tPe) / (2 * MPI / n) +
        (if t0 < tPe then -(1 / 2) else 1 / 2))
    else 0
  (times, period, nOrb)

/-- The per-orbit data the merge-walk loop reads: the four range times,
the period, whether the orbit is periodic, and the orbit's four `fs`
entries (consulted by the advance step). -/
structure OrbData where
  times : R4
  period : ℚ
  closed : Bool
  fs : R4
deriving Repr

/-- `times[o][2*i+0]` for `i = isect[o]`. -/
def rSel0 (g : R4) (i : ℕ) : ℚ := if i = 0 then g.f0 else g.f2

/-- `times[o][2*i+1]` for `i = isect[o]`. -/
def rSel1 (g : R4) (i : ℕ) : ℚ := if i = 0 then g.f1 else g.f3

/-- The mutable state of the merge-walk loop (lines 207-254).  The
output list is stored most-recent-first, so the C array contents are
`out.reverse`. -/
structure TwSt where
  isect1 : ℕ
  isect2 : ℕ
  nOrbit1 : ℤ
  nOrbit2 : ℤ
  t : ℚ
  out : List (ℚ × ℚ)
deriving Repr

/-- `trange[o][1]`: the end of orbit `o`'s current time range on its
current whole-orbit count (line 217). -/
def curEnd (d : OrbData) (isect : ℕ) (n : ℤ) : ℚ :=
  rSel1 d.times isect + (n : ℚ) * d.period

/-- Lines 226-238: append the non-empty overlap interval, merging it
into the previous interval when its begin does not clear the previous
end by more than the tolerance.  The list is most-recent-first. -/
def twWrite (tBegin tEnd : ℚ) (out : List (ℚ × ℚ)) : List (ℚ × ℚ) :=
  if tBegin < tEnd then
    match out with
    | (lb, pe) :: rest =>
        if tBegin ≤ pe ∨ zeroQ (tBegin - pe) then (lb, tEnd) :: rest
        else (tBegin, tEnd) :: (lb, pe) :: rest
    | [] => [(tBegin, tEnd)]
  else out

/-- One iteration of the merge-walk loop body (lines 211-253): compute
the overlap of the two current time ranges, write or merge it, and
advance the orbit whose range ends first.  The returned flag is `false`
exactly when the `break` of line 249 fires (open orbit exhausted; the
out-of-bounds `fs` read at `isect == 2` in the C source is harmless
because the `||` short-circuit discards the value). -/
def twStep (d1 d2 : OrbData) (t0 t1 : ℚ) (st : TwSt) : TwSt × Bool :=
  let tr1b := rSel0 d1.times st.isect1 + (st.nOrbit1 : ℚ) * d1.period
  let tr1e := curEnd d1 st.isect1 st.nOrbit1
  let tr2b := rSel0 d2.times st.isect2 + (st.nOrbit2 : ℚ) * d2.period
  let tr2e := curEnd d2 st.isect2 st.nOrbit2
  let tBegin := max st.t (max tr1b tr2b)
  let tEnd := min t1 (min tr1e tr2e)
  let t' := max t0 tEnd
  let out' := twWrite tBegin tEnd st.out
  if tr1e < tr2e then
    let is' := st.isect1 + 1
    if is' = 2 ∨ ¬(rSel0 d1.fs is' < rSel1 d1.fs is') then
      if d1.closed = false then
        (⟨is', st.isect2, st.nOrbit1, st.nOrbit2, t', out'⟩, false)
      else
        (⟨0, st.isect2, st.nOrbit1 + 1, st.nOrbit2, t', out'⟩, true)
    else (⟨is', st.isect2, st.nOrbit1, st.nOrbit2, t', out'⟩, true)
  else
    let is' := st.isect2 + 1
    if is' = 2 ∨ ¬(rSel0 d2.fs is' < rSel1 d2.fs is') then
      if d2.closed = false then
        (⟨st.isect1, is', st.nOrbit1, st.nOrbit2, t', out'⟩, false)
      else
        (⟨st.isect1, 0, st.nOrbit1, st.nOrbit2 + 1, t', out'⟩, true)
    else (⟨st.isect1, is', st.nOrbit1, st.nOrbit2, t', out'⟩, true)

/-- The fuel-indexed merge-walk driver for the `while` loop of line
210: `none` when the fuel runs out before the loop exits, otherwise the
state at exit (condition false, or the open-orbit `break`). -/
def twRun (d1 d2 : OrbData) (t0 t1 : ℚ) (maxTimes : ℕ) :
    ℕ → TwSt → Option TwSt
  | 0, _ => none
  | fuel + 1, st =>
      if st.t < t1 ∧ st.out.length < maxTimes then
        let s := twStep d1 d2 t0 t1 st
        if s.2 then twRun d1 d2 t0 t1 maxTimes fuel s.1
        else some s.1
      else some st

/-- `intercept_times`: the written time intervals in array order, or
`none` if the modelling fuel ran out before the loop exited. -/
def interceptTimes (ext : Collab) (o1 o2 : Orbit) (t0 t1 : ℚ)
    (fs1 fs2 : R4) (maxTimes fuel : ℕ) : Option (List (ℚ × ℚ)) :=
  let mu := o1.mu
  let r1 := orbTimes ext mu o1 t0 t1 fs1.f0 fs1.f1 fs1.f2 fs1.f3
  let r2 := orbTimes ext mu o2 t0 t1 fs2.f0 fs2.f1 fs2.f2 fs2.f3
  let d1 : OrbData := ⟨r1.1, r1.2.1, orbitElliptic o1, fs1⟩
  let d2 : OrbData := ⟨r2.1, r2.2.1, orbitElliptic o2, fs2⟩
  (twRun d1 d2 t0 t1 maxTimes fuel ⟨0, 0, r1.2.2, r2.2.2, t0, []⟩).map
    (fun st => st.out.reverse)

/-! ## `intercept_search` (intercept.c lines 310-470) -/

/-- One sample of lines 367-385: relative distance and closing rate at
time `t` (the C locals `dist`, `vrel`, `E[0]`, `E[1]`). -/
def searchSample (ext : Collab) (o1 o2 : Orbit) (n1 n2 : ℚ) (t : ℚ) :
    ℚ × ℚ × ℚ × ℚ :=
  let E1 := ext.meanToEccentric o1.e ((t - o1.tPe) * n1)
  let E2 := ext.meanToEccentric o2.e ((t - o2.tPe) * n2)
  let dr := subV (ext.positionE o2 E2) (ext.positionE o1 E1)
  let dv := subV (ext.velocityE o2 E2) (ext.velocityE o1 E1)
  let dist := ext.sqrt (dotV dr dr)
  (dist, dotV dr dv / dist, E1, E2)

/-- The mutable state of the search loop.  `dist`, `vrel`, `E1`, `E2`
are the last sample (the C code initializes them to NaN; the model uses
0, they are observable only when `max_steps = 0`).  `evals` counts the
sample evaluations performed (one per loop iteration). -/
structure SearchSt where
  t : ℚ
  prevTime : ℚ
  tEnd : ℚ
  minDt : ℚ
  prevSgn : ℚ
  dist : ℚ
  vrel : ℚ
  E1 : ℚ
  E2 : ℚ
  evals : ℕ
deriving Repr

/-- The search loop of lines 366-451, indexed by the remaining step
count (`rem = max_steps - step`).  Branch order is the source order:
finished-minimization break; approaching-below-threshold break (its
`dt = (target-dist)/vrel` is computed but dead, since the branch breaks
out of the loop); sign-change backtrack; past-`t1` break; skip-ahead.
The fall-through tail updates `t_end`, `prev_time`, `prev_sgn` and
advances `t`. -/
def searchLoop (ext : Collab) (o1 o2 : Orbit) (n1 n2 vmax : ℚ)
    (t0 t1 threshold target : ℚ) : ℕ → SearchSt → SearchSt
  | 0, st => st
  | rem + 1, st =>
      let s := searchSample ext o1 o2 n1 n2 st.t
      let dist := s.1
      let vrel := s.2.1
      let sgn := csign vrel * csign (dist - target)
      let st1 : SearchSt := ⟨st.t, st.prevTime, st.tEnd, st.minDt,
        st.prevSgn, dist, vrel, s.2.2.1, s.2.2.2, st.evals + 1⟩
      if zeroQ ((dist - max 0 target) * (dist - max 0 target) /
          (threshold * threshold)) then st1
      else if sgn < 0 ∧ dist < threshold ∧ t0 < st.tEnd then st1
      else if 0 < sgn ∧ st.prevSgn < 0 ∧
          |dist - target| < (st.t - st.prevTime) * vmax + threshold ∧
          (t1 - st.tEnd) / ((rem : ℚ) + 1) < st.t - st.prevTime then
        searchLoop ext o1 o2 n1 n2 vmax t0 t1 threshold target rem
          ⟨st.prevTime + (st.t - st.prevTime) / 2, st.prevTime,
            max (max st.t st.tEnd) st.prevTime, (st.t - st.prevTime) / 2,
            st.prevSgn, dist, vrel, s.2.2.1, s.2.2.2, st.evals + 1⟩
      else if t1 < st.t then st1
      else
        searchLoop ext o1 o2 n1 n2 vmax t0 t1 threshold target rem
          ⟨st.t + max (max st.minDt (-1))
              (|dist - target - threshold| / vmax),
            st.t, max st.tEnd st.t, st.minDt, sgn, dist, vrel,
            s.2.2.1, s.2.2.2, st.evals + 1⟩

/-- `intercept_search`: run the sampling loop from `t0` with the search
horizon initialized to `t1`.  The returned state carries the function's
return value (`tEnd`), the written `intercept` fields (`t`, `dist`,
`vrel`, `E1`, `E2`) and the sample-evaluation count. -/
def interceptSearch (ext : Collab) (o1 o2 : Orbit)
    (t0 t1 threshold target : ℚ) (maxSteps : ℕ) : SearchSt :=
  let mu := o1.mu
  let n1 := ext.meanMotion mu o1.p o1.e
  let n2 := ext.meanMotion mu o2.p o2.e
  let vmax := ext.periapsisVelocity mu o1.p o1.e +
    ext.periapsisVelocity mu o2.p o2.e
  searchLoop ext o1 o2 n1 n2 vmax t0 t1 threshold target maxSteps
    ⟨t0, 0, t1, (t1 - t0) / ((maxSteps / 2 : ℕ) : ℚ), 0, 0, 0,
      (t0 - o1.tPe) * n1, (t0 - o2.tPe) * n2, 0⟩

/-! ## `intercept_orbit` (intercept.c lines 472-512) -/

/-- The eight `fs` doubles of line 481 as two four-slot halves: the
loop of lines 482-485 calls `intercept_intersect(orbit1, orbit2, ...)`
for **both** halves — the arguments do not depend on the loop index —
so the second half is again orbit 1's ranges with respect to orbit 2. -/
def interceptOrbitFs (ext : Collab) (o1 o2 : Orbit) (threshold : ℚ) :
    R4 × R4 :=
  ((interceptIntersect ext o1 o2 threshold).2.getD ⟨1, -1, 1, -1⟩,
   (interceptIntersect ext o1 o2 threshold).2.getD ⟨1, -1, 1, -1⟩)

/-- `intercept_orbit`: the returned `int`.  When either
`intercept_intersect` call returns 0 ranges, line 484 executes
`return t1;` — the double `t1` truncated to `int` — otherwise the
number of intercepts found by running one `intercept_search` per time
window.  `none` only when the merge-walk modelling fuel runs out. -/
def interceptOrbit (ext : Collab) (o1 o2 : Orbit)
    (t0 t1 threshold target : ℚ) (maxIntercepts maxSteps fuel : ℕ) :
    Option ℤ :=
  if (interceptIntersect ext o1 o2 threshold).1 = 0 then
    some (cTruncZ t1)
  else
    let fs := interceptOrbitFs ext o1 o2 threshold
    match interceptTimes ext o1 o2 t0 t1 fs.1 fs.2
        (4 * maxIntercepts) fuel with
    | none => none
    | some ts =>
        some (ts.foldl (fun num iv =>
          if iv.1 < iv.2 ∧ num < (maxIntercepts : ℤ) then
            if (interceptSearch ext o1 o2 iv.1 iv.2 threshold target
                maxSteps).dist ≤ threshold
            then num + 1 else num
          else num) 0)

/-! ### C10: the returned search horizon never drops below `t1` -/

/-- The search loop only raises the `t_end` horizon (branch 3 and the
fall-through tail both use `fmax`, the break branches keep it). -/
theorem searchLoop_tEnd_mono (ext : Collab) (o1 o2 : Orbit)
    (n1 n2 vmax t0 t1 threshold target : ℚ) :
    ∀ rem st, st.tEnd ≤
      (searchLoop ext o1 o2 n1 n2 vmax t0 t1 threshold target rem st).tEnd := by
  intro rem
  induction rem with
  | zero => intro st; exact le_refl _
  | succ n ih =>
      intro st
      simp only [searchLoop]
      split_ifs
      · exact le_refl _
      · exact le_refl _
      · exact le_trans (le_trans (le_max_right st.t st.tEnd)
          (le_max_left _ st.prevTime)) (ih _)
      · exact le_refl _
      · exact le_trans (le_max_left st.tEnd st.t) (ih _)

/-- C10: for every input with `t0 ≤ t1`, the value returned by
`intercept_search` (the running search horizon `t_end`) is at least
`t1`: it is initialized to `t1` and only ever increased. -/
theorem interceptSearch_horizon (ext : Collab) (o1 o2 : Orbit)
    (t0 t1 threshold target : ℚ) (maxSteps : ℕ) (h : t0 ≤ t1) :
    t1 ≤ (interceptSearch ext o1 o2 t0 t1 threshold target
      maxSteps).tEnd := by
  unfold interceptSearch
  exact searchLoop_tEnd_mono ext o1 o2 _ _ _ t0 t1 threshold target
    maxSteps ⟨t0, 0, t1, (t1 - t0) / ((maxSteps / 2 : ℕ) : ℚ), 0, 0, 0,
      (t0 - o1.tPe) * (ext.meanMotion o1.mu o1.p o1.e),
      (t0 - o2.tPe) * (ext.meanMotion o1.mu o2.p o2.e), 0⟩

/-- Witness for C10 at a concrete input. -/
theorem interceptSearch_horizon_witness :
    (0 : ℚ) ≤ 1 ∧
      1 ≤ (interceptSearch extZero orbitCircUnit orbitCircUnit 0 1 1 0
        0).tEnd :=
  ⟨by norm_num,
   interceptSearch_horizon extZero orbitCircUnit orbitCircUnit 0 1 1 0 0
     (by norm_num)⟩

/-! ### C5: the approaching-below-threshold branch discards its step -/

/-- The collaborator instance for the C5 divergence: two bodies one
unit apart, closing at unit rate. -/
def extC5 : Collab where
  sqrt := fun x => if x = 1 then 1 else 0
  sin := fun _ => 0
  cos := fun _ => 0
  asin := fun _ => 0
  acos := fun _ => 0
  trueAnomalyFromRadius := fun _ _ _ => 0
  maxTrueAnomaly := fun _ => 0
  meanMotion := fun _ _ _ => 0
  meanToTrue := fun _ _ => 0
  trueToMean := fun _ _ => 0
  meanToEccentric := fun _ _ => 0
  periapsisVelocity := fun _ _ _ => 0
  positionE := fun o _ => if o.e = 0 then ⟨0, 0, 0⟩ else ⟨1, 0, 0⟩
  velocityE := fun o _ => if o.e = 0 then ⟨0, 0, 0⟩ else ⟨-1, 0, 0⟩
  asin_mem := fun _ _ _ => ⟨by norm_num [MPI], by norm_num [MPI]⟩
  acos_mem := fun _ _ _ => ⟨le_refl 0, le_of_lt MPI_pos⟩
  taf_mem := fun _ _ _ => ⟨le_refl 0, le_refl 0⟩
  maxTA_mem := fun _ => ⟨le_refl 0, le_of_lt MPI_pos⟩
  meanMotion_nonneg := fun _ _ _ => le_refl 0

/-- C5 divergence: at a sample that is approaching (`vrel = -1 < 0`)
with distance `1` within the threshold `2` of the target distance `0`,
the searcher computes the extrapolation step `(target - dist)/vrel = 1`
into the local `dt` and then immediately breaks out of the loop, so
the step is never applied: the recorded intercept time stays at the
sample time `0` instead of the extrapolated `0 + 1 = 1`, and the whole
search stops after this single sample. -/
theorem c5_divergence :
    interceptSearch extC5 orbitCircUnit o2C3 0 1 2 0 2
        = ⟨0, 0, 1, 1, 0, 1, -1, 0, 0, 1⟩ ∧
      (0 : ℚ) + (0 - 1) / (-1 : ℚ) = 1 ∧ (1 : ℚ) ≠ 0 := by
  refine ⟨?_, by norm_num, by norm_num⟩
  norm_num [interceptSearch, searchLoop, searchSample, csign, zeroQ,
    subV, dotV, extC5, orbitCircUnit, o2C3, EPS]

/-! ### C1: the zero-range early return of `intercept_orbit` -/

/-- First orbit of the C1 divergence: periapsis 10, apoapsis 20. -/
def o1C1 : Orbit :=
  ⟨1, 40 / 3, 1 / 3, 0, false, ⟨1, 0, 0⟩, ⟨0, 1, 0⟩, ⟨0, 0, 1⟩⟩

/-- Second orbit of the C1 divergence: periapsis 100, apoapsis 200 —
the two orbits never come within the threshold of each other. -/
def o2C1 : Orbit :=
  ⟨1, 400 / 3, 1 / 3, 0, false, ⟨1, 0, 0⟩, ⟨0, 1, 0⟩, ⟨0, 0, 1⟩⟩

/-- C1 divergence: when the Range Intersector yields zero ranges,
`intercept_orbit` executes `return t1;` — the double `t1` truncated to
`int` — rather than returning 0 intercepts: at `t1 = 5` with two orbits
whose radius bands never overlap (pruned, zero ranges), the function
returns 5, not 0. -/
theorem c1_divergence :
    (∀ (ext : Collab) (o1 o2 : Orbit) (t0 t1 threshold target : ℚ)
      (mi ms fuel : ℕ),
      (interceptIntersect ext o1 o2 threshold).1 = 0 →
      interceptOrbit ext o1 o2 t0 t1 threshold target mi ms fuel
        = some (cTruncZ t1)) ∧
    interceptOrbit extZero o1C1 o2C1 0 5 1 0 4 10 3 = some 5 ∧
    (5 : ℤ) ≠ 0 := by
  refine ⟨?_, ?_, by norm_num⟩
  · intro ext o1 o2 t0 t1 threshold target mi ms fuel h
    unfold interceptOrbit
    rw [if_pos h]
  · norm_num [interceptOrbit, interceptIntersect, conicClosed,
      conicApoapsis, conicPeriapsis, o1C1, o2C1, cTruncZ]

/-! ### C2: both `fs` halves come from the same unswapped call -/

/-- The collaborator instance for the C2 divergence: a true-anomaly-
from-radius map making the swapped intersect call produce visibly
different ranges. -/
def extC2 : Collab where
  sqrt := fun _ => 0
  sin := fun _ => 0
  cos := fun _ => 0
  asin := fun _ => 0
  acos := fun _ => 0
  trueAnomalyFromRadius := fun _ _ r =>
    if r = 1 / 2 then 0 else if r = 3 / 2 then 1 else 0
  maxTrueAnomaly := fun e => if e < 1 then MPI else 2
  meanMotion := fun _ _ _ => 0
  meanToTrue := fun _ _ => 0
  trueToMean := fun _ _ => 0
  meanToEccentric := fun _ _ => 0
  periapsisVelocity := fun _ _ _ => 0
  positionE := fun _ _ => ⟨0, 0, 0⟩
  velocityE := fun _ _ => ⟨0, 0, 0⟩
  asin_mem := fun _ _ _ => ⟨by norm_num [MPI], by norm_num [MPI]⟩
  acos_mem := fun _ _ _ => ⟨le_refl 0, le_of_lt MPI_pos⟩
  taf_mem := by
    intro p e r
    dsimp only
    constructor <;> split_ifs <;> norm_num [MPI]
  maxTA_mem := by
    intro e
    dsimp only
    split_ifs <;> constructor <;> norm_num [MPI]
  meanMotion_nonneg := fun _ _ _ => le_refl 0

/-- Second orbit of the C2 divergence: open hyperbola coplanar with the
unit circular orbit. -/
def o2C2 : Orbit :=
  ⟨1, 3, 2, 0, false, ⟨1, 0, 0⟩, ⟨0, 1, 0⟩, ⟨0, 0, 1⟩⟩

/-- C2 divergence: the `fs`-filling loop of `intercept_orbit` passes
`intercept_intersect`'s output for `(orbit1, orbit2)` as **both**
halves of the eight angular ranges — the call's arguments do not depend
on the loop index — whereas the claim requires the second half to be
the output for `(orbit2, orbit1)`.  On a concrete orbit pair the two
differ. -/
theorem c2_divergence :
    (∀ (ext : Collab) (o1 o2 : Orbit) (threshold : ℚ),
      (interceptOrbitFs ext o1 o2 threshold).2
        = (interceptIntersect ext o1 o2 threshold).2.getD
            ⟨1, -1, 1, -1⟩) ∧
    (interceptOrbitFs extC2 orbitCircUnit o2C2 (1 / 2)).2
      ≠ (interceptIntersect extC2 o2C2 orbitCircUnit (1 / 2)).2.getD
          ⟨1, -1, 1, -1⟩ := by
  constructor
  · intro ext o1 o2 threshold
    rfl
  · have h1 : (interceptOrbitFs extC2 orbitCircUnit o2C2 (1 / 2)).2
        = ⟨-MPI, MPI, 1, -1⟩ := by
      norm_num [interceptOrbitFs, interceptIntersect, radiusBands,
        planeBands, intersectRanges, stage1, apoUnion, periUnion,
        wrapSwap, emptySwap, fullCollapse, rangeCount, conicClosed,
        conicCircular, conicApoapsis, conicPeriapsis, zeroQ, EPS, MPI,
        crossV, dotV, extC2, orbitCircUnit, o2C2, min_def, max_def]
    have h2 : (interceptIntersect extC2 o2C2 orbitCircUnit (1 / 2)).2.getD
          (⟨1, -1, 1, -1⟩ : R4)
        = ⟨-1, 1, 1, -1⟩ := by
      norm_num [interceptIntersect, radiusBands, planeBands,
        intersectRanges, stage1, apoUnion, periUnion, wrapSwap,
        emptySwap, fullCollapse, rangeCount, conicClosed, conicCircular,
        conicApoapsis, conicPeriapsis, zeroQ, EPS, MPI, crossV, dotV,
        extC2, orbitCircUnit, o2C2, min_def, max_def]
    rw [h1, h2]
    intro h
    have h0 := congrArg R4.f0 h
    norm_num [MPI] at h0

/-! ### C4: validity of the written time intervals

The walk stores intervals most-recent-first; `outRevOK` is validity of
that reversed list: every interval lies in `[t0, t1]` with begin < end,
and each interval starts strictly after the next (older) one ends. -/

def outRevOK (t0 t1 : ℚ) (l : List (ℚ × ℚ)) : Prop :=
  (∀ p ∈ l, t0 ≤ p.1 ∧ p.1 < p.2 ∧ p.2 ≤ t1) ∧
  List.Chain' (fun a b => b.2 < a.1) l

theorem rSel0_zero (g : R4) : rSel0 g 0 = g.f0 := rfl

theorem rSel0_one (g : R4) : rSel0 g 1 = g.f2 := rfl

theorem rSel1_zero (g : R4) : rSel1 g 0 = g.f1 := rfl

theorem rSel1_one (g : R4) : rSel1 g 1 = g.f3 := rfl

/-- The end of the time range the advance step will move an orbit to:
from the first pair it moves to the second pair if non-empty, else
wraps to the first pair one period later; from the second pair it
always wraps. -/
def nextEndW (d : OrbData) (isect : ℕ) (n : ℤ) : ℚ :=
  if isect = 0 then
    (if d.fs.f2 < d.fs.f3 then d.times.f3 + (n : ℚ) * d.period
     else d.times.f1 + ((n : ℚ) + 1) * d.period)
  else d.times.f1 + ((n : ℚ) + 1) * d.period

/-- The guard relating the newest written interval's end `pe` to the
two current range ends: either both ends have reached `pe`, or exactly
one orbit is transiently behind — in which case the walk time has
already passed that orbit's (t1-clamped) end so no interval can be
written, a closed orbit's next advance restores its end above `pe`,
and an open orbit is on its last range so its next advance breaks. -/
def twGB (d1 d2 : OrbData) (t1 : ℚ) (i1 : ℕ) (n1 : ℤ) (i2 : ℕ) (n2 : ℤ)
    (t pe : ℚ) : Prop :=
  (pe ≤ curEnd d1 i1 n1 ∧ pe ≤ curEnd d2 i2 n2) ∨
  (curEnd d1 i1 n1 < pe ∧ pe ≤ curEnd d2 i2 n2 ∧
    min t1 (curEnd d1 i1 n1) ≤ t ∧
    (d1.closed = true → pe ≤ nextEndW d1 i1 n1) ∧
    (d1.closed = false → i1 = 1)) ∨
  (curEnd d2 i2 n2 < pe ∧ pe ≤ curEnd d1 i1 n1 ∧
    min t1 (curEnd d2 i2 n2) ≤ t ∧
    (d2.closed = true → pe ≤ nextEndW d2 i2 n2) ∧
    (d2.closed = false → i2 = 1))

def twGuard (d1 d2 : OrbData) (t1 : ℚ) (st : TwSt) : Prop :=
  ∀ lb pe rest, st.out = (lb, pe) :: rest →
    twGB d1 d2 t1 st.isect1 st.nOrbit1 st.isect2 st.nOrbit2 st.t pe

/-- The merge-walk loop invariant. -/
def twInv (d1 d2 : OrbData) (t0 t1 : ℚ) (st : TwSt) : Prop :=
  outRevOK t0 t1 st.out ∧ t0 ≤ st.t ∧
  (st.isect1 = 0 ∨ st.isect1 = 1) ∧ (st.isect2 = 0 ∨ st.isect2 = 1) ∧
  (st.isect1 = 1 → d1.fs.f2 < d1.fs.f3) ∧
  (st.isect2 = 1 → d2.fs.f2 < d2.fs.f3) ∧
  twGuard d1 d2 t1 st

/-- Validity of the write phase: a pushed interval starts strictly
after the previous end; a merged interval keeps its begin and cannot
shrink because the no-shrink hypothesis `hns` bounds the previous end
by the new end whenever a non-empty overlap exists. -/
theorem twWrite_ok (t0 t1 tBegin tEnd : ℚ) (out : List (ℚ × ℚ))
    (hout : outRevOK t0 t1 out)
    (htB : t0 ≤ tBegin) (htE : tEnd ≤ t1)
    (hns : ∀ lb pe rest, out = (lb, pe) :: rest → tBegin < tEnd →
      pe ≤ tEnd) :
    outRevOK t0 t1 (twWrite tBegin tEnd out) ∧
    (twWrite tBegin tEnd out).length ≤ out.length + 1 := by
  obtain ⟨hmem, hchain⟩ := hout
  unfold twWrite
  by_cases hw : tBegin < tEnd
  · rw [if_pos hw]
    match out, hmem, hchain, hns with
    | [], _, _, _ =>
        refine ⟨⟨?_, ?_⟩, ?_⟩
        · intro p hp
          rcases List.mem_singleton.mp hp with h
          rw [h]
          exact ⟨htB, hw, htE⟩
        · exact List.chain'_singleton _
        · simp
    | (lb, pe) :: rest, hmem, hchain, hns =>
        have hhead := hmem (lb, pe) (List.mem_cons_self _ _)
        dsimp only
        by_cases hm : tBegin ≤ pe ∨ zeroQ (tBegin - pe)
        · rw [if_pos hm]
          have hpeE : pe ≤ tEnd := hns lb pe rest rfl hw
          refine ⟨⟨?_, ?_⟩, ?_⟩
          · intro p hp
            rcases List.mem_cons.mp hp with h | h
            · rw [h]
              exact ⟨hhead.1, lt_of_lt_of_le hhead.2.1 hpeE, htE⟩
            · exact hmem p (List.mem_cons_of_mem _ h)
          · rcases rest with _ | ⟨⟨c, dd⟩, rest'⟩
            · exact List.chain'_singleton _
            · rw [List.chain'_cons] at hchain ⊢
              exact ⟨hchain.1, hchain.2⟩
          · simp
        · rw [if_neg hm]
          push_neg at hm
          refine ⟨⟨?_, ?_⟩, ?_⟩
          · intro p hp
            rcases List.mem_cons.mp hp with h | h
            · rw [h]
              exact ⟨htB, hw, htE⟩
            · exact hmem p h
          · rw [List.chain'_cons]
            exact ⟨hm.1, hchain⟩
          · simp
  · rw [if_neg hw]
    exact ⟨⟨hmem, hchain⟩, Nat.le_succ _⟩

theorem nextEndW_eq_wrap (d : OrbData) (n : ℤ) (i : ℕ)
    (h : i = 1 ∨ (i = 0 ∧ ¬(d.fs.f2 < d.fs.f3))) :
    nextEndW d i n = curEnd d 0 (n + 1) := by
  unfold nextEndW curEnd
  rw [rSel1_zero]
  push_cast
  rcases h with h1 | ⟨h0, hemp⟩
  · rw [if_neg (by rw [h1]; norm_num)]
  · rw [if_pos h0, if_neg hemp]

theorem nextEndW_eq_inner (d : OrbData) (n : ℤ)
    (h : d.fs.f2 < d.fs.f3) :
    nextEndW d 0 n = curEnd d 1 n := by
  unfold nextEndW curEnd
  rw [if_pos rfl, if_pos h, rSel1_one]

theorem curEnd_mono (d : OrbData) (n : ℤ) (hP : 0 ≤ d.period) :
    curEnd d 0 n ≤ curEnd d 0 (n + 1) := by
  unfold curEnd
  push_cast
  nlinarith [hP]

/-- Reading the guard with the two orbits swapped. -/
theorem twGB_swap (d1 d2 : OrbData) (t1 : ℚ) (i1 : ℕ) (n1 : ℤ)
    (i2 : ℕ) (n2 : ℤ) (t pe : ℚ)
    (h : twGB d2 d1 t1 i2 n2 i1 n1 t pe) :
    twGB d1 d2 t1 i1 n1 i2 n2 t pe := by
  unfold twGB at h ⊢
  tauto

/-- After a wrap advance of orbit 1 from a state where both ends have
reached `pe`, the guard still holds: the new end either reaches `pe`
(always, when the wrap leaves the same pair), or orbit 1 is transiently
behind with its next advance restoring it. -/
theorem twGB_S_wrap (d1 d2 : OrbData) (t1 : ℚ) (i1 : ℕ) (n1 : ℤ)
    (i2 : ℕ) (n2 : ℤ) (t' pe : ℚ)
    (hP1 : 0 ≤ d1.period)
    (hi1 : i1 = 0 ∨ i1 = 1) (hfs1 : i1 = 1 → d1.fs.f2 < d1.fs.f3)
    (hcl : d1.closed = true)
    (hpe1 : pe ≤ curEnd d1 i1 n1) (hpe2 : pe ≤ curEnd d2 i2 n2)
    (hpet : pe ≤ t') :
    twGB d1 d2 t1 0 (n1 + 1) i2 n2 t' pe := by
  by_cases hcmp : pe ≤ curEnd d1 0 (n1 + 1)
  · exact Or.inl ⟨hcmp, hpe2⟩
  · push_neg at hcmp
    refine Or.inr (Or.inl ⟨hcmp, hpe2,
      le_trans (min_le_right _ _) (le_trans (le_of_lt hcmp) hpet),
      fun _ => ?_, fun h => (Bool.noConfusion (h ▸ hcl) : _)⟩)
    rcases hi1 with h0 | h1
    · exfalso
      rw [h0] at hpe1
      exact absurd (le_trans hpe1 (curEnd_mono d1 n1 hP1)) (not_le.mpr hcmp)
    · rw [h1] at hpe1
      unfold curEnd at hpe1
      rw [rSel1_one] at hpe1
      unfold nextEndW
      rw [if_pos rfl, if_pos (hfs1 h1)]
      push_cast
      linarith

/-- After an inner advance of orbit 1 (first pair to non-empty second
pair) from a state where both ends have reached `pe`, the guard still
holds. -/
theorem twGB_S_inner (d1 d2 : OrbData) (t1 : ℚ) (n1 : ℤ)
    (i2 : ℕ) (n2 : ℤ) (t' pe : ℚ)
    (hP1 : 0 ≤ d1.period)
    (hpe1 : pe ≤ curEnd d1 0 n1) (hpe2 : pe ≤ curEnd d2 i2 n2)
    (hpet : pe ≤ t') :
    twGB d1 d2 t1 1 n1 i2 n2 t' pe := by
  by_cases hcmp : pe ≤ curEnd d1 1 n1
  · exact Or.inl ⟨hcmp, hpe2⟩
  · push_neg at hcmp
    refine Or.inr (Or.inl ⟨hcmp, hpe2,
      le_trans (min_le_right _ _) (le_trans (le_of_lt hcmp) hpet),
      fun _ => ?_, fun _ => rfl⟩)
    unfold nextEndW
    rw [if_neg (by norm_num)]
    unfold curEnd at hpe1
    rw [rSel1_zero] at hpe1
    push_cast
    linarith

set_option maxHeartbeats 1000000 in
/-- One walk iteration preserves output validity (adding at most one
interval), and — when it does not `break` — the full loop invariant. -/
theorem twStep_ok (d1 d2 : OrbData) (t0 t1 : ℚ)
    (hP1 : 0 ≤ d1.period) (hP2 : 0 ≤ d2.period)
    (st : TwSt) (hinv : twInv d1 d2 t0 t1 st) :
    (outRevOK t0 t1 (twStep d1 d2 t0 t1 st).1.out ∧
      (twStep d1 d2 t0 t1 st).1.out.length ≤ st.out.length + 1) ∧
    ((twStep d1 d2 t0 t1 st).2 = true →
      twInv d1 d2 t0 t1 (twStep d1 d2 t0 t1 st).1) := by
  obtain ⟨hout, ht0, hi1, hi2, hfs1, hfs2, hguard⟩ := hinv
  simp only [twStep]
  set E1 := curEnd d1 st.isect1 st.nOrbit1 with hE1d
  set E2 := curEnd d2 st.isect2 st.nOrbit2 with hE2d
  set B := max st.t
    (max (rSel0 d1.times st.isect1 + (st.nOrbit1 : ℚ) * d1.period)
      (rSel0 d2.times st.isect2 + (st.nOrbit2 : ℚ) * d2.period)) with hBd
  set TE := min t1 (min E1 E2) with hTEd
  have hBt : st.t ≤ B := le_max_left _ _
  have hB0 : t0 ≤ B := le_trans ht0 hBt
  have hTEt1 : TE ≤ t1 := min_le_left _ _
  have hTE1 : TE ≤ E1 := le_trans (min_le_right _ _) (min_le_left _ _)
  have hTE2 : TE ≤ E2 := le_trans (min_le_right _ _) (min_le_right _ _)
  have hpet1fun : ∀ lb pe rest, st.out = (lb, pe) :: rest → pe ≤ t1 :=
    fun lb pe rest heq => (hout.1 (lb, pe)
      (by rw [heq]; exact List.mem_cons_self _ _)).2.2
  have hns : ∀ lb pe rest, st.out = (lb, pe) :: rest → B < TE →
      pe ≤ TE := by
    intro lb pe rest heq hBE
    have hg := hguard lb pe rest heq
    unfold twGB at hg
    rw [← hE1d, ← hE2d] at hg
    rcases hg with ⟨h1, h2⟩ | htr | htr
    · exact le_min (hpet1fun lb pe rest heq) (le_min h1 h2)
    · exact absurd hBE (not_lt.mpr
        (le_trans (le_trans (le_min hTEt1 hTE1) htr.2.2.1) hBt))
    · exact absurd hBE (not_lt.mpr
        (le_trans (le_trans (le_min hTEt1 hTE2) htr.2.2.1) hBt))
  have houtW := twWrite_ok t0 t1 B TE st.out hout hB0 hTEt1 hns
  have hheadW : twWrite B TE st.out = st.out ∨
      ∃ lb2 rest2, twWrite B TE st.out = (lb2, TE) :: rest2 := by
    unfold twWrite
    by_cases hw : B < TE
    · rw [if_pos hw]
      rcases hso : st.out with _ | ⟨⟨lb, pe⟩, rest⟩
      · exact Or.inr ⟨B, [], rfl⟩
      · dsimp only
        by_cases hm : B ≤ pe ∨ zeroQ (B - pe)
        · rw [if_pos hm]; exact Or.inr ⟨lb, rest, rfl⟩
        · rw [if_neg hm]; exact Or.inr ⟨B, (lb, pe) :: rest, rfl⟩
    · rw [if_neg hw]; exact Or.inl rfl
  by_cases hadv : E1 < E2
  · rw [if_pos hadv]
    by_cases hwr : st.isect1 + 1 = 2 ∨
        ¬(rSel0 d1.fs (st.isect1 + 1) < rSel1 d1.fs (st.isect1 + 1))
    · rw [if_pos hwr]
      by_cases hop : d1.closed = false
      · rw [if_pos hop]
        exact ⟨⟨houtW.1, houtW.2⟩, fun hfl => Bool.noConfusion hfl⟩
      · rw [if_neg hop]
        have hcl : d1.closed = true := by
          cases hb : d1.closed
          · exact absurd hb hop
          · rfl
        refine ⟨⟨houtW.1, houtW.2⟩, fun _ => ?_⟩
        refine ⟨houtW.1, le_max_left _ _, Or.inl rfl, hi2,
          fun h => absurd h (by norm_num), hfs2, ?_⟩
        intro lb'' pe'' rest'' heq''
        dsimp only at heq'' ⊢
        rcases hheadW with hsame | ⟨lb2, rest2, hw2⟩
        · rw [hsame] at heq''
          have hg := hguard lb'' pe'' rest'' heq''
          unfold twGB at hg
          rw [← hE1d, ← hE2d] at hg
          have hpt1 : pe'' ≤ t1 := hpet1fun lb'' pe'' rest'' heq''
          rcases hg with ⟨h1, h2⟩ | htr | htr
          · exact twGB_S_wrap d1 d2 t1 st.isect1 st.nOrbit1 st.isect2
              st.nOrbit2 (max t0 TE) pe'' hP1 hi1 hfs1 hcl h1 h2
              (le_trans (le_min hpt1 (le_min h1 h2)) (le_max_right _ _))
          · obtain ⟨hlt, hpe2, htmin, hclnext, hopnext⟩ := htr
            have hnext := hclnext hcl
            have heqn : nextEndW d1 st.isect1 st.nOrbit1
                = curEnd d1 0 (st.nOrbit1 + 1) := by
              rcases hi1 with h0 | h1
              · refine nextEndW_eq_wrap d1 st.nOrbit1 _ (Or.inr ⟨h0, ?_⟩)
                rcases hwr with h2 | hne
                · rw [h0] at h2; norm_num at h2
                · rw [h0] at hne
                  exact hne
              · exact nextEndW_eq_wrap d1 st.nOrbit1 _ (Or.inl h1)
            rw [heqn] at hnext
            exact Or.inl ⟨hnext, hpe2⟩
          · exfalso
            have := htr.1
            have := htr.2.1
            linarith
        · rw [hw2] at heq''
          injection heq'' with hh htl
          injection hh with hl2 hTEpe
          subst hTEpe
          exact twGB_S_wrap d1 d2 t1 st.isect1 st.nOrbit1 st.isect2
            st.nOrbit2 (max t0 TE) TE hP1 hi1 hfs1 hcl hTE1 hTE2
            (le_max_right _ _)
    · rw [if_neg hwr]
      push_neg at hwr
      obtain ⟨hne2, hpair⟩ := hwr
      have h10 : st.isect1 = 0 := by
        rcases hi1 with h | h
        · exact h
        · exfalso; rw [h] at hne2; exact hne2 rfl
      have hpair' : d1.fs.f2 < d1.fs.f3 := by
        rw [h10] at hpair
        exact hpair
      refine ⟨⟨houtW.1, houtW.2⟩, fun _ => ?_⟩
      refine ⟨houtW.1, le_max_left _ _, Or.inr (by rw [h10]), hi2,
        fun _ => hpair', hfs2, ?_⟩
      intro lb'' pe'' rest'' heq''
      dsimp only at heq'' ⊢
      rw [h10]
      rcases hheadW with hsame | ⟨lb2, rest2, hw2⟩
      · rw [hsame] at heq''
        have hg := hguard lb'' pe'' rest'' heq''
        unfold twGB at hg
        rw [← hE1d, ← hE2d] at hg
        have hpt1 : pe'' ≤ t1 := hpet1fun lb'' pe'' rest'' heq''
        rcases hg with ⟨h1, h2⟩ | htr | htr
        · have h1' := h1
          rw [hE1d, h10] at h1'
          exact twGB_S_inner d1 d2 t1 st.nOrbit1 st.isect2 st.nOrbit2
            (max t0 TE) pe'' hP1 h1' h2
            (le_trans (le_min hpt1 (le_min h1 h2)) (le_max_right _ _))
        · obtain ⟨hlt, hpe2, htmin, hclnext, hopnext⟩ := htr
          cases hclv : d1.closed with
          | false =>
              exfalso
              have h11 := hopnext hclv
              rw [h10] at h11
              norm_num at h11
          | true =>
              have hnext := hclnext hclv
              have heqn : nextEndW d1 st.isect1 st.nOrbit1
                  = curEnd d1 1 st.nOrbit1 := by
                rw [h10]
                exact nextEndW_eq_inner d1 st.nOrbit1 hpair'
              rw [heqn] at hnext
              exact Or.inl ⟨hnext, hpe2⟩
        · exfalso
          have := htr.1
          have := htr.2.1
          linarith
      · rw [hw2] at heq''
        injection heq'' with hh htl
        injection hh with hl2 hTEpe
        subst hTEpe
        have h1' := hTE1
        rw [hE1d, h10] at h1'
        exact twGB_S_inner d1 d2 t1 st.nOrbit1 st.isect2 st.nOrbit2
          (max t0 TE) TE hP1 h1' hTE2 (le_max_right _ _)
  · rw [if_neg hadv]
    by_cases hwr : st.isect2 + 1 = 2 ∨
        ¬(rSel0 d2.fs (st.isect2 + 1) < rSel1 d2.fs (st.isect2 + 1))
    · rw [if_pos hwr]
      by_cases hop : d2.closed = false
      · rw [if_pos hop]
        exact ⟨⟨houtW.1, houtW.2⟩, fun hfl => Bool.noConfusion hfl⟩
      · rw [if_neg hop]
        have hcl : d2.closed = true := by
          cases hb : d2.closed
          · exact absurd hb hop
          · rfl
        refine ⟨⟨houtW.1, houtW.2⟩, fun _ => ?_⟩
        refine ⟨houtW.1, le_max_left _ _, hi1, Or.inl rfl, hfs1,
          fun h => absurd h (by norm_num), ?_⟩
        intro lb'' pe'' rest'' heq''
        dsimp only at heq'' ⊢
        rcases hheadW with hsame | ⟨lb2, rest2, hw2⟩
        · rw [hsame] at heq''
          have hg := hguard lb'' pe'' rest'' heq''
          unfold twGB at hg
          rw [← hE1d, ← hE2d] at hg
          have hpt1 : pe'' ≤ t1 := hpet1fun lb'' pe'' rest'' heq''
          rcases hg with ⟨h1, h2⟩ | htr | htr
          · exact twGB_swap d1 d2 t1 st.isect1 st.nOrbit1 0
              (st.nOrbit2 + 1) (max t0 TE) pe''
              (twGB_S_wrap d2 d1 t1 st.isect2 st.nOrbit2 st.isect1
                st.nOrbit1 (max t0 TE) pe'' hP2 hi2 hfs2 hcl h2 h1
                (le_trans (le_min hpt1 (le_min h1 h2))
                  (le_max_right _ _)))
          · exfalso
            have := htr.1
            have := htr.2.1
            have : E1 < E2 := by linarith
            exact hadv this
          · obtain ⟨hlt, hpe1, htmin, hclnext, hopnext⟩ := htr
            have hnext := hclnext hcl
            have heqn : nextEndW d2 st.isect2 st.nOrbit2
                = curEnd d2 0 (st.nOrbit2 + 1) := by
              rcases hi2 with h0 | h1
              · refine nextEndW_eq_wrap d2 st.nOrbit2 _ (Or.inr ⟨h0, ?_⟩)
                rcases hwr with h2 | hne
                · rw [h0] at h2; norm_num at h2
                · rw [h0] at hne
                  exact hne
              · exact nextEndW_eq_wrap d2 st.nOrbit2 _ (Or.inl h1)
            rw [heqn] at hnext
            exact Or.inl ⟨hpe1, hnext⟩
        · rw [hw2] at heq''
          injection heq'' with hh htl
          injection hh with hl2 hTEpe
          subst hTEpe
          exact twGB_swap d1 d2 t1 st.isect1 st.nOrbit1 0
            (st.nOrbit2 + 1) (max t0 TE) TE
            (twGB_S_wrap d2 d1 t1 st.isect2 st.nOrbit2 st.isect1
              st.nOrbit1 (max t0 TE) TE hP2 hi2 hfs2 hcl hTE2 hTE1
              (le_max_right _ _))
    · rw [if_neg hwr]
      push_neg at hwr
      obtain ⟨hne2, hpair⟩ := hwr
      have h20 : st.isect2 = 0 := by
        rcases hi2 with h | h
        · exact h
        · exfalso; rw [h] at hne2; exact hne2 rfl
      have hpair' : d2.fs.f2 < d2.fs.f3 := by
        rw [h20] at hpair
        exact hpair
      refine ⟨⟨houtW.1, houtW.2⟩, fun _ => ?_⟩
      refine ⟨houtW.1, le_max_left _ _, hi1, Or.inr (by rw [h20]),
        hfs1, fun _ => hpair', ?_⟩
      intro lb'' pe'' rest'' heq''
      dsimp only at heq'' ⊢
      rw [h20]
      rcases hheadW with hsame | ⟨lb2, rest2, hw2⟩
      · rw [hsame] at heq''
        have hg := hguard lb'' pe'' rest'' heq''
        unfold twGB at hg
        rw [← hE1d, ← hE2d] at hg
        have hpt1 : pe'' ≤ t1 := hpet1fun lb'' pe'' rest'' heq''
        rcases hg with ⟨h1, h2⟩ | htr | htr
        · have h2' := h2
          rw [hE2d, h20] at h2'
          exact twGB_swap d1 d2 t1 st.isect1 st.nOrbit1 1 st.nOrbit2
            (max t0 TE) pe''
            (twGB_S_inner d2 d1 t1 st.nOrbit2 st.isect1 st.nOrbit1
              (max t0 TE) pe'' hP2 h2' h1
              (le_trans (le_min hpt1 (le_min h1 h2))
                (le_max_right _ _)))
        · exfalso
          have := htr.1
          have := htr.2.1
          have : E1 < E2 := by linarith
          exact hadv this
        · obtain ⟨hlt, hpe1, htmin, hclnext, hopnext⟩ := htr
          cases hclv : d2.closed with
          | false =>
              exfalso
              have h11 := hopnext hclv
              rw [h20] at h11
              norm_num at h11
          | true =>
              have hnext := hclnext hclv
              have heqn : nextEndW d2 st.isect2 st.nOrbit2
                  = curEnd d2 1 st.nOrbit2 := by
                rw [h20]
                exact nextEndW_eq_inner d2 st.nOrbit2 hpair'
              rw [heqn] at hnext
              exact Or.inl ⟨hpe1, hnext⟩
      · rw [hw2] at heq''
        injection heq'' with hh htl
        injection hh with hl2 hTEpe
        subst hTEpe
        have h2' := hTE2
        rw [hE2d, h20] at h2'
        exact twGB_swap d1 d2 t1 st.isect1 st.nOrbit1 1 st.nOrbit2
          (max t0 TE) TE
          (twGB_S_inner d2 d1 t1 st.nOrbit2 st.isect1 st.nOrbit1
            (max t0 TE) TE hP2 h2' hTE1 (le_max_right _ _))

/-- Running the walk from an invariant state yields a valid output list
of at most `maxTimes` intervals. -/
theorem twRun_ok (d1 d2 : OrbData) (t0 t1 : ℚ) (maxTimes : ℕ)
    (hP1 : 0 ≤ d1.period) (hP2 : 0 ≤ d2.period) :
    ∀ fuel st st', twInv d1 d2 t0 t1 st → st.out.length ≤ maxTimes →
      twRun d1 d2 t0 t1 maxTimes fuel st = some st' →
      outRevOK t0 t1 st'.out ∧ st'.out.length ≤ maxTimes := by
  intro fuel
  induction fuel with
  | zero => intro st st' _ _ h; exact Option.noConfusion h
  | succ n ih =>
      intro st st' hinv hlen h
      simp only [twRun] at h
      by_cases hc : st.t < t1 ∧ st.out.length < maxTimes
      · rw [if_pos hc] at h
        have hstep := twStep_ok d1 d2 t0 t1 hP1 hP2 st hinv
        by_cases hfl : (twStep d1 d2 t0 t1 st).2 = true
        · rw [if_pos hfl] at h
          exact ih _ st' (hstep.2 hfl)
            (le_trans hstep.1.2 (Nat.succ_le_of_lt hc.2)) h
        · rw [if_neg hfl] at h
          obtain rfl : (twStep d1 d2 t0 t1 st).1 = st' := Option.some.inj h
          exact ⟨hstep.1.1, le_trans hstep.1.2 (Nat.succ_le_of_lt hc.2)⟩
      · rw [if_neg hc] at h
        obtain rfl : st = st' := Option.some.inj h
        exact ⟨hinv.1, hlen⟩

theorem orbTimes_period_nonneg (ext : Collab) (mu : ℚ) (o : Orbit)
    (t0 t1 a b c d : ℚ) :
    0 ≤ (orbTimes ext mu o t0 t1 a b c d).2.1 := by
  simp only [orbTimes]
  split_ifs with h
  · exact div_nonneg (by linarith [MPI_pos]) (ext.meanMotion_nonneg _ _ _)
  · exact le_refl 0

/-- C4: whenever the `intercept_times` walk exits, the written list of
time intervals is pairwise disjoint, ordered by ascending start time,
each interval has begin < end and lies within `[t0, t1]`, and the
count never exceeds the caller's capacity. -/
theorem interceptTimes_valid (ext : Collab) (o1 o2 : Orbit)
    (t0 t1 : ℚ) (fs1 fs2 : R4) (maxTimes fuel : ℕ)
    (out : List (ℚ × ℚ))
    (h : interceptTimes ext o1 o2 t0 t1 fs1 fs2 maxTimes fuel
      = some out) :
    (∀ p ∈ out, t0 ≤ p.1 ∧ p.1 < p.2 ∧ p.2 ≤ t1) ∧
    List.Chain' (fun a b => a.2 < b.1) out ∧ out.length ≤ maxTimes := by
  simp only [interceptTimes] at h
  rw [Option.map_eq_some'] at h
  obtain ⟨st', hrun, hout⟩ := h
  have hres := twRun_ok
    ⟨(orbTimes ext o1.mu o1 t0 t1 fs1.f0 fs1.f1 fs1.f2 fs1.f3).1,
      (orbTimes ext o1.mu o1 t0 t1 fs1.f0 fs1.f1 fs1.f2 fs1.f3).2.1,
      orbitElliptic o1, fs1⟩
    ⟨(orbTimes ext o1.mu o2 t0 t1 fs2.f0 fs2.f1 fs2.f2 fs2.f3).1,
      (orbTimes ext o1.mu o2 t0 t1 fs2.f0 fs2.f1 fs2.f2 fs2.f3).2.1,
      orbitElliptic o2, fs2⟩
    t0 t1 maxTimes
    (orbTimes_period_nonneg ext o1.mu o1 t0 t1 fs1.f0 fs1.f1 fs1.f2
      fs1.f3)
    (orbTimes_period_nonneg ext o1.mu o2 t0 t1 fs2.f0 fs2.f1 fs2.f2
      fs2.f3)
    fuel _ st'
    ⟨⟨fun p hp => absurd hp (List.not_mem_nil p), List.chain'_nil⟩,
      le_refl t0, Or.inl rfl, Or.inl rfl,
      fun hx => absurd hx (by norm_num),
      fun hx => absurd hx (by norm_num),
      fun lb pe rest hx => List.noConfusion hx⟩
    (by simp) hrun
  subst hout
  refine ⟨?_, ?_, ?_⟩
  · intro p hp
    exact hres.1.1 p (List.mem_reverse.mp hp)
  · rw [List.chain'_reverse]
    exact hres.1.2
  · rw [List.length_reverse]
    exact hres.2

/-- Witness for C4 at a concrete input where the loop exits at once. -/
theorem interceptTimes_valid_witness :
    (∀ p ∈ ([] : List (ℚ × ℚ)), (0 : ℚ) ≤ p.1 ∧ p.1 < p.2 ∧ p.2 ≤ 0) ∧
    List.Chain' (fun a b => a.2 < b.1) ([] : List (ℚ × ℚ)) ∧
    ([] : List (ℚ × ℚ)).length ≤ 4 :=
  interceptTimes_valid extZero orbitCircUnit orbitCircUnit 0 0
    ⟨1, -1, 1, -1⟩ ⟨1, -1, 1, -1⟩ 4 1 []
    (by norm_num [interceptTimes, orbTimes, twRun, conicClosed,
      extZero, orbitCircUnit])

/-! ### C9: loop termination and the sample-evaluation ceiling -/

/-- Each search-loop iteration performs exactly one sample evaluation,
and the loop runs at most `rem` more iterations. -/
theorem searchLoop_evals (ext : Collab) (o1 o2 : Orbit)
    (n1 n2 vmax t0 t1 threshold target : ℚ) :
    ∀ rem st, (searchLoop ext o1 o2 n1 n2 vmax t0 t1 threshold target
      rem st).evals ≤ st.evals + rem := by
  intro rem
  induction rem with
  | zero => intro st; exact Nat.le_add_right _ _
  | succ n ih =>
      intro st
      simp only [searchLoop]
      split_ifs
      · dsimp only; omega
      · dsimp only; omega
      · exact le_trans (ih _) (by dsimp only; omega)
      · dsimp only; omega
      · exact le_trans (ih _) (by dsimp only; omega)

/-- The whole-orbit counter value past which a closed orbit's current
range end has passed `t1`. -/
def Kcrit (d : OrbData) (t1 : ℚ) : ℤ :=
  2 * (⌈(t1 - min d.times.f1 d.times.f3) / d.period⌉ + 1)

/-- Remaining advances of one orbit before its end passes `t1` (closed)
or its ranges are exhausted (open). -/
def remFuel (d : OrbData) (t1 : ℚ) (isect : ℕ) (n : ℤ) : ℕ :=
  if d.closed = true then (Kcrit d t1 - (2 * n + isect)).toNat
  else 2 - isect

/-- The termination measure of the merge-walk loop. -/
def twFuel (d1 d2 : OrbData) (t1 : ℚ) (st : TwSt) : ℕ :=
  remFuel d1 t1 st.isect1 st.nOrbit1 +
  remFuel d2 t1 st.isect2 st.nOrbit2 +
  (if st.t < t1 then 1 else 0)

/-- Once the counter reaches `Kcrit`, the current range end has passed
`t1`. -/
theorem curEnd_ge_t1 (d : OrbData) (t1 : ℚ) (isect : ℕ) (n : ℤ)
    (hP : 0 < d.period) (hi : isect = 0 ∨ isect = 1)
    (hK : Kcrit d t1 ≤ 2 * n + isect) :
    t1 ≤ curEnd d isect n := by
  have hmn : ⌈(t1 - min d.times.f1 d.times.f3) / d.period⌉ ≤ n := by
    unfold Kcrit at hK
    rcases hi with h | h <;> rw [h] at hK <;> push_cast at hK <;> omega
  have hm := Int.le_ceil ((t1 - min d.times.f1 d.times.f3) / d.period)
  rw [div_le_iff hP] at hm
  have hsel : min d.times.f1 d.times.f3 ≤ rSel1 d.times isect := by
    rcases hi with h | h
    · rw [h, rSel1_zero]; exact min_le_left _ _
    · rw [h, rSel1_one]; exact min_le_right _ _
  have hcast : (⌈(t1 - min d.times.f1 d.times.f3) / d.period⌉ : ℚ)
      ≤ (n : ℚ) := by exact_mod_cast hmn
  unfold curEnd
  nlinarith [mul_le_mul_of_nonneg_right hcast (le_of_lt hP)]

/-- A continuing walk step keeps the pair indices in `{0, 1}`. -/
theorem twStep_lite (d1 d2 : OrbData) (t0 t1 : ℚ) (st : TwSt)
    (hi1 : st.isect1 = 0 ∨ st.isect1 = 1)
    (hi2 : st.isect2 = 0 ∨ st.isect2 = 1)
    (hfl : (twStep d1 d2 t0 t1 st).2 = true) :
    ((twStep d1 d2 t0 t1 st).1.isect1 = 0 ∨
      (twStep d1 d2 t0 t1 st).1.isect1 = 1) ∧
    ((twStep d1 d2 t0 t1 st).1.isect2 = 0 ∨
      (twStep d1 d2 t0 t1 st).1.isect2 = 1) := by
  simp only [twStep] at hfl ⊢
  by_cases hadv : curEnd d1 st.isect1 st.nOrbit1
      < curEnd d2 st.isect2 st.nOrbit2
  · rw [if_pos hadv] at hfl ⊢
    by_cases hwr : st.isect1 + 1 = 2 ∨
        ¬(rSel0 d1.fs (st.isect1 + 1) < rSel1 d1.fs (st.isect1 + 1))
    · rw [if_pos hwr] at hfl ⊢
      by_cases hop : d1.closed = false
      · rw [if_pos hop] at hfl
        exact Bool.noConfusion hfl
      · rw [if_neg hop]
        exact ⟨Or.inl rfl, hi2⟩
    · rw [if_neg hwr]
      push_neg at hwr
      refine ⟨Or.inr ?_, hi2⟩
      rcases hi1 with h | h
      · rw [h]
      · exfalso; rw [h] at hwr; exact hwr.1 rfl
  · rw [if_neg hadv] at hfl ⊢
    by_cases hwr : st.isect2 + 1 = 2 ∨
        ¬(rSel0 d2.fs (st.isect2 + 1) < rSel1 d2.fs (st.isect2 + 1))
    · rw [if_pos hwr] at hfl ⊢
      by_cases hop : d2.closed = false
      · rw [if_pos hop] at hfl
        exact Bool.noConfusion hfl
      · rw [if_neg hop]
        exact ⟨hi1, Or.inl rfl⟩
    · rw [if_neg hwr]
      push_neg at hwr
      refine ⟨hi1, Or.inr ?_⟩
      rcases hi2 with h | h
      · rw [h]
      · exfalso; rw [h] at hwr; exact hwr.1 rfl

set_option maxHeartbeats 800000 in
/-- Every continuing walk iteration strictly decreases the termination
measure: the advanced orbit either consumes one remaining advance, or —
when its counter has already passed `Kcrit` — both ends have passed
`t1`, so the walk time jumps to `t1` and the loop condition dies. -/
theorem twStep_fuel (d1 d2 : OrbData) (t0 t1 : ℚ)
    (hP1 : d1.closed = true → 0 < d1.period)
    (hP2 : d2.closed = true → 0 < d2.period)
    (st : TwSt)
    (hi1 : st.isect1 = 0 ∨ st.isect1 = 1)
    (hi2 : st.isect2 = 0 ∨ st.isect2 = 1)
    (hc : st.t < t1)
    (hfl : (twStep d1 d2 t0 t1 st).2 = true) :
    twFuel d1 d2 t1 (twStep d1 d2 t0 t1 st).1 < twFuel d1 d2 t1 st := by
  have hle1 : st.isect1 ≤ 1 := by rcases hi1 with h | h <;> omega
  have hle2 : st.isect2 ≤ 1 := by rcases hi2 with h | h <;> omega
  simp only [twStep] at hfl ⊢
  set E1 := curEnd d1 st.isect1 st.nOrbit1 with hE1d
  set E2 := curEnd d2 st.isect2 st.nOrbit2 with hE2d
  set TE := min t1 (min E1 E2) with hTEd
  have hindle : (if max t0 TE < t1 then (1 : ℕ) else 0) ≤ 1 := by
    split_ifs <;> norm_num
  by_cases hadv : E1 < E2
  · rw [if_pos hadv] at hfl ⊢
    by_cases hwr : st.isect1 + 1 = 2 ∨
        ¬(rSel0 d1.fs (st.isect1 + 1) < rSel1 d1.fs (st.isect1 + 1))
    · rw [if_pos hwr] at hfl ⊢
      by_cases hop : d1.closed = false
      · rw [if_pos hop] at hfl; exact Bool.noConfusion hfl
      · rw [if_neg hop]
        have hcl : d1.closed = true := by
          cases hb : d1.closed
          · exact absurd hb hop
          · rfl
        unfold twFuel remFuel
        dsimp only
        rw [if_pos hcl, if_pos hcl, if_pos hc]
        by_cases hbig : Kcrit d1 t1 ≤ 2 * st.nOrbit1 + st.isect1
        · have hE1t := curEnd_ge_t1 d1 t1 st.isect1 st.nOrbit1
            (hP1 hcl) hi1 hbig
          rw [← hE1d] at hE1t
          have hmax : t1 ≤ max t0 TE := le_trans
            (le_min (le_refl t1)
              (le_min hE1t (le_trans hE1t (le_of_lt hadv))))
            (le_max_right _ _)
          rw [if_neg (not_lt.mpr hmax)]
          omega
        · push_neg at hbig
          omega
    · rw [if_neg hwr]
      push_neg at hwr
      have h10 : st.isect1 = 0 := by
        rcases hi1 with h | h
        · exact h
        · exfalso; rw [h] at hwr; exact hwr.1 rfl
      unfold twFuel remFuel
      dsimp only
      rw [if_pos hc]
      by_cases hclv : d1.closed = true
      · rw [if_pos hclv, if_pos hclv]
        by_cases hbig : Kcrit d1 t1 ≤ 2 * st.nOrbit1 + st.isect1
        · have hE1t := curEnd_ge_t1 d1 t1 st.isect1 st.nOrbit1
            (hP1 hclv) hi1 hbig
          rw [← hE1d] at hE1t
          have hmax : t1 ≤ max t0 TE := le_trans
            (le_min (le_refl t1)
              (le_min hE1t (le_trans hE1t (le_of_lt hadv))))
            (le_max_right _ _)
          rw [if_neg (not_lt.mpr hmax)]
          omega
        · push_neg at hbig
          omega
      · rw [if_neg hclv, if_neg hclv]
        omega
  · rw [if_neg hadv] at hfl ⊢
    push_neg at hadv
    by_cases hwr : st.isect2 + 1 = 2 ∨
        ¬(rSel0 d2.fs (st.isect2 + 1) < rSel1 d2.fs (st.isect2 + 1))
    · rw [if_pos hwr] at hfl ⊢
      by_cases hop : d2.closed = false
      · rw [if_pos hop] at hfl; exact Bool.noConfusion hfl
      · rw [if_neg hop]
        have hcl : d2.closed = true := by
          cases hb : d2.closed
          · exact absurd hb hop
          · rfl
        unfold twFuel remFuel
        dsimp only
        rw [if_pos hcl, if_pos hcl, if_pos hc]
        by_cases hbig : Kcrit d2 t1 ≤ 2 * st.nOrbit2 + st.isect2
        · have hE2t := curEnd_ge_t1 d2 t1 st.isect2 st.nOrbit2
            (hP2 hcl) hi2 hbig
          rw [← hE2d] at hE2t
          have hmax : t1 ≤ max t0 TE := le_trans
            (le_min (le_refl t1)
              (le_min (le_trans hE2t hadv) hE2t))
            (le_max_right _ _)
          rw [if_neg (not_lt.mpr hmax)]
          omega
        · push_neg at hbig
          omega
    · rw [if_neg hwr]
      push_neg at hwr
      have h20 : st.isect2 = 0 := by
        rcases hi2 with h | h
        · exact h
        · exfalso; rw [h] at hwr; exact hwr.1 rfl
      unfold twFuel remFuel
      dsimp only
      rw [if_pos hc]
      by_cases hclv : d2.closed = true
      · rw [if_pos hclv, if_pos hclv]
        by_cases hbig : Kcrit d2 t1 ≤ 2 * st.nOrbit2 + st.isect2
        · have hE2t := curEnd_ge_t1 d2 t1 st.isect2 st.nOrbit2
            (hP2 hclv) hi2 hbig
          rw [← hE2d] at hE2t
          have hmax : t1 ≤ max t0 TE := le_trans
            (le_min (le_refl t1)
              (le_min (le_trans hE2t hadv) hE2t))
            (le_max_right _ _)
          rw [if_neg (not_lt.mpr hmax)]
          omega
        · push_neg at hbig
          omega
      · rw [if_neg hclv, if_neg hclv]
        omega

/-- With positive periods on closed orbits, the walk exits within
`twFuel + 1` iterations. -/
theorem twRun_terminates (d1 d2 : OrbData) (t0 t1 : ℚ) (maxTimes : ℕ)
    (hP1 : d1.closed = true → 0 < d1.period)
    (hP2 : d2.closed = true → 0 < d2.period) :
    ∀ k st, (st.isect1 = 0 ∨ st.isect1 = 1) →
      (st.isect2 = 0 ∨ st.isect2 = 1) →
      twFuel d1 d2 t1 st ≤ k →
      ∃ r, twRun d1 d2 t0 t1 maxTimes (k + 1) st = some r := by
  intro k
  induction k with
  | zero =>
      intro st hi1 hi2 hf
      simp only [twRun]
      have hnt : ¬(st.t < t1) := by
        intro hlt
        unfold twFuel at hf
        rw [if_pos hlt] at hf
        omega
      rw [if_neg (fun hcon => hnt hcon.1)]
      exact ⟨st, rfl⟩
  | succ k ih =>
      intro st hi1 hi2 hf
      simp only [twRun]
      by_cases hcond : st.t < t1 ∧ st.out.length < maxTimes
      · rw [if_pos hcond]
        by_cases hfl : (twStep d1 d2 t0 t1 st).2 = true
        · rw [if_pos hfl]
          have hdec := twStep_fuel d1 d2 t0 t1 hP1 hP2 st hi1 hi2
            hcond.1 hfl
          have hlite := twStep_lite d1 d2 t0 t1 st hi1 hi2 hfl
          exact ih (twStep d1 d2 t0 t1 st).1 hlite.1 hlite.2 (by omega)
        · rw [if_neg hfl]
          exact ⟨_, rfl⟩
      · rw [if_neg hcond]
        exact ⟨st, rfl⟩

/-- C9: (a) `intercept_search` performs at most `max_steps` sample
evaluations on every input, and (b) the merge-walk loop of
`intercept_times` terminates for every input whose two mean motions are
positive: some finite fuel makes the modelled loop exit. -/
theorem intercept_loops_terminate :
    (∀ (ext : Collab) (o1 o2 : Orbit) (t0 t1 threshold target : ℚ)
      (maxSteps : ℕ),
      (interceptSearch ext o1 o2 t0 t1 threshold target maxSteps).evals
        ≤ maxSteps) ∧
    (∀ (ext : Collab) (o1 o2 : Orbit) (t0 t1 : ℚ) (fs1 fs2 : R4)
      (maxTimes : ℕ),
      0 < ext.meanMotion o1.mu o1.p o1.e →
      0 < ext.meanMotion o1.mu o2.p o2.e →
      ∃ fuel out,
        interceptTimes ext o1 o2 t0 t1 fs1 fs2 maxTimes fuel
          = some out) := by
  constructor
  · intro ext o1 o2 t0 t1 threshold target maxSteps
    simp only [interceptSearch]
    refine le_trans
      (searchLoop_evals ext o1 o2 _ _ _ t0 t1 threshold target
        maxSteps _) ?_
    norm_num
  · intro ext o1 o2 t0 t1 fs1 fs2 maxTimes hn1 hn2
    have hP1 : (orbitElliptic o1 = true →
        0 < (orbTimes ext o1.mu o1 t0 t1 fs1.f0 fs1.f1 fs1.f2
          fs1.f3).2.1) := by
      intro hcl
      simp only [orbitElliptic] at hcl
      simp only [orbTimes]
      rw [if_pos hcl]
      exact div_pos (by linarith [MPI_pos]) hn1
    have hP2 : (orbitElliptic o2 = true →
        0 < (orbTimes ext o1.mu o2 t0 t1 fs2.f0 fs2.f1 fs2.f2
          fs2.f3).2.1) := by
      intro hcl
      simp only [orbitElliptic] at hcl
      simp only [orbTimes]
      rw [if_pos hcl]
      exact div_pos (by linarith [MPI_pos]) hn2
    obtain ⟨r, hr⟩ := twRun_terminates
      ⟨(orbTimes ext o1.mu o1 t0 t1 fs1.f0 fs1.f1 fs1.f2 fs1.f3).1,
        (orbTimes ext o1.mu o1 t0 t1 fs1.f0 fs1.f1 fs1.f2 fs1.f3).2.1,
        orbitElliptic o1, fs1⟩
      ⟨(orbTimes ext o1.mu o2 t0 t1 fs2.f0 fs2.f1 fs2.f2 fs2.f3).1,
        (orbTimes ext o1.mu o2 t0 t1 fs2.f0 fs2.f1 fs2.f2 fs2.f3).2.1,
        orbitElliptic o2, fs2⟩
      t0 t1 maxTimes hP1 hP2
      (twFuel
        ⟨(orbTimes ext o1.mu o1 t0 t1 fs1.f0 fs1.f1 fs1.f2 fs1.f3).1,
          (orbTimes ext o1.mu o1 t0 t1 fs1.f0 fs1.f1 fs1.f2 fs1.f3).2.1,
          orbitElliptic o1, fs1⟩
        ⟨(orbTimes ext o1.mu o2 t0 t1 fs2.f0 fs2.f1 fs2.f2 fs2.f3).1,
          (orbTimes ext o1.mu o2 t0 t1 fs2.f0 fs2.f1 fs2.f2 fs2.f3).2.1,
          orbitElliptic o2, fs2⟩
        t1
        ⟨0, 0,
          (orbTimes ext o1.mu o1 t0 t1 fs1.f0 fs1.f1 fs1.f2 fs1.f3).2.2,
          (orbTimes ext o1.mu o2 t0 t1 fs2.f0 fs2.f1 fs2.f2 fs2.f3).2.2,
          t0, []⟩)
      ⟨0, 0,
        (orbTimes ext o1.mu o1 t0 t1 fs1.f0 fs1.f1 fs1.f2 fs1.f3).2.2,
        (orbTimes ext o1.mu o2 t0 t1 fs2.f0 fs2.f1 fs2.f2 fs2.f3).2.2,
        t0, []⟩
      (Or.inl rfl) (Or.inl rfl) (le_refl _)
    refine ⟨twFuel
        ⟨(orbTimes ext o1.mu o1 t0 t1 fs1.f0 fs1.f1 fs1.f2 fs1.f3).1,
          (orbTimes ext o1.mu o1 t0 t1 fs1.f0 fs1.f1 fs1.f2 fs1.f3).2.1,
          orbitElliptic o1, fs1⟩
        ⟨(orbTimes ext o1.mu o2 t0 t1 fs2.f0 fs2.f1 fs2.f2 fs2.f3).1,
          (orbTimes ext o1.mu o2 t0 t1 fs2.f0 fs2.f1 fs2.f2 fs2.f3).2.1,
          orbitElliptic o2, fs2⟩
        t1
        ⟨0, 0,
          (orbTimes ext o1.mu o1 t0 t1 fs1.f0 fs1.f1 fs1.f2 fs1.f3).2.2,
          (orbTimes ext o1.mu o2 t0 t1 fs2.f0 fs2.f1 fs2.f2 fs2.f3).2.2,
          t0, []⟩ + 1,
      r.out.reverse, ?_⟩
    simp only [interceptTimes]
    rw [hr]
    rfl

/-- A collaborator instance with unit mean motion, used by the C9
witness. -/
def extOne : Collab where
  sqrt := fun _ => 0
  sin := fun _ => 0
  cos := fun _ => 0
  asin := fun _ => 0
  acos := fun _ => 0
  trueAnomalyFromRadius := fun _ _ _ => 0
  maxTrueAnomaly := fun _ => 0
  meanMotion := fun _ _ _ => 1
  meanToTrue := fun _ _ => 0
  trueToMean := fun _ _ => 0
  meanToEccentric := fun _ _ => 0
  periapsisVelocity := fun _ _ _ => 0
  positionE := fun _ _ => ⟨0, 0, 0⟩
  velocityE := fun _ _ => ⟨0, 0, 0⟩
  asin_mem := fun _ _ _ => ⟨by norm_num [MPI], by norm_num [MPI]⟩
  acos_mem := fun _ _ _ => ⟨le_refl 0, le_of_lt MPI_pos⟩
  taf_mem := fun _ _ _ => ⟨le_refl 0, le_refl 0⟩
  maxTA_mem := fun _ => ⟨le_refl 0, le_of_lt MPI_pos⟩
  meanMotion_nonneg := fun _ _ _ => by norm_num

/-- Witness for C9 at concrete inputs. -/
theorem intercept_loops_terminate_witness :
    (interceptSearch extZero orbitCircUnit orbitCircUnit 0 1 1 0
      3).evals ≤ 3 ∧
    ((0 : ℚ) < extOne.meanMotion orbitCircUnit.mu orbitCircUnit.p
        orbitCircUnit.e ∧
      ∃ fuel out, interceptTimes extOne orbitCircUnit orbitCircUnit 0 1
        ⟨1, -1, 1, -1⟩ ⟨1, -1, 1, -1⟩ 4 fuel = some out) :=
  ⟨intercept_loops_terminate.1 extZero orbitCircUnit orbitCircUnit
    0 1 1 0 3,
   ⟨by norm_num [extOne, orbitCircUnit],
    intercept_loops_terminate.2 extOne orbitCircUnit orbitCircUnit 0 1
      ⟨1, -1, 1, -1⟩ ⟨1, -1, 1, -1⟩ 4
      (by norm_num [extOne, orbitCircUnit])
      (by norm_num [extOne, orbitCircUnit])⟩⟩
